import Mathlib

/-!
# Verification of the `step` agent-runtime core

A shallow embedding, in Lean 4, of the core of the `step` repository
(github.com/inspirepan/step): the canonical message/part data model
(`part.go`, `message.go`, `delta.go`, part_001/part_005), the
chat-completion stream adapter (`providers/chatcompletion`, part_003),
the reasoning handlers (`providers/chatcompletion` DefaultReasoningHandler,
`providers/openrouter/reasoning.go`), the request builder
(`providers/chatcompletion/input.go`), and the step orchestrator / tool
executor (the `runStep` / `executeTools` functions of package `step`).

Go strings are Lean `String`s; Go `map[string]any` values exchanged with
the JSON layer are modelled by the inductive `JVal`; Go's
`map[int]*toolCallAccumulator` is modelled by an insertion-ordered
association list together with an explicit, unconstrained iteration order
for `range` loops (Go map iteration order is unspecified).  `time.Now()`
timestamps are irrelevant to every property below and are omitted from
the embedded records.
-/

namespace StepV

/-- `step.ThinkingPart` (part.go): model reasoning content.  All fields
are Go strings whose zero value is `""`. -/
structure ThinkingPart where
  id : String := ""
  thinking : String := ""
  signature : String := ""
  format : String := ""
  modelName : String := ""
deriving DecidableEq, Repr

/-- `step.ToolCallPart` (part.go).  `argsJSON` keeps the raw bytes. -/
structure ToolCallPart where
  callID : String := ""
  name : String := ""
  argsJSON : String := ""
deriving DecidableEq, Repr

/-- `step.Part` (part.go): tagged union of message fragments. -/
inductive Part where
  | text (text : String)
  | thinking (p : ThinkingPart)
  | image (mimeType dataB64 : String)
  | toolCall (p : ToolCallPart)
deriving DecidableEq, Repr

/-- `step.Usage` (message.go). -/
structure Usage where
  inputTokens : Nat := 0
  outputTokens : Nat := 0
  cachedReadTokens : Nat := 0
  totalTokens : Nat := 0
deriving DecidableEq, Repr

/-- `step.AssistantMessage` (message.go).  `stopReason` is the Go string
type `StopReason` (zero value `""`); the millisecond timestamp is
omitted (it never enters any equation below). -/
structure AssistantMessage where
  parts : List Part := []
  usage : Option Usage := none
  stopReason : String := ""
deriving DecidableEq, Repr

/-- `step.ToolResultMessage` (message.go), minus the timestamp.  The Go
`Details map[string]any` field is carried as an opaque list of keys with
`JVal` values once `JVal` is introduced; for the claims below only its
presence matters, so it is dropped. -/
structure ToolResultMessage where
  callID : String := ""
  name : String := ""
  isError : Bool := false
  parts : List Part := []
deriving DecidableEq, Repr

/-- `step.ToolResult` (tools.go), minus `Details`. -/
structure ToolResult where
  callID : String := ""
  name : String := ""
  parts : List Part := []
  isError : Bool := false
deriving DecidableEq, Repr

/-- `step.MessageDelta` (delta.go): streaming-only updates.
`toolCallDelta` carries the fields of `step.ToolCallDelta`; `wireIndex`
additionally records `tc.Index`, the integer wire index of the tool-call
fragment in scope at the single emission site
(`stream.go` / part_003 `processChunk`), so that per-call properties can
be stated; it is determined by the emission context, not extra data. -/
inductive MessageDelta where
  | thinkingDelta (delta : String)
  | textDelta (delta : String)
  | toolCallDelta (callID name argsDelta : String) (wireIndex : Nat)
  | toolExecDelta (callID name : String) (isEnd : Bool)
  | stepStatusDelta (cancelled : Bool)
deriving DecidableEq, Repr

/-- `step.ProviderUpdate` (part_001): delta or final message. -/
inductive ProviderUpdate where
  | delta (d : MessageDelta)
  | message (m : AssistantMessage)
deriving DecidableEq, Repr

/-! ## JSON values

The reasoning handlers exchange `map[string]any` / `[]any` values with
the JSON layer.  `JVal` models the JSON fragment of `any`.  Lookups are
by key, mirroring Go map indexing (keys in the embedded objects are
distinct, so association-list lookup is faithful). -/
inductive JVal where
  | str (s : String)
  | num (n : Int)
  | arr (xs : List JVal)
  | obj (fields : List (String × JVal))

namespace JVal

/-- Go `m[key]` for `map[string]any`. -/
def get : JVal → String → Option JVal
  | .obj fields, key => fields.lookup key
  | _, _ => none

/-- Go `v.(string)` type assertion: the string value, if it is one. -/
def asStr : Option JVal → Option String
  | some (.str s) => some s
  | _ => none

/-- Go `s, ok := m[key].(string); ok && s != ""`. -/
def strField (v : JVal) (key : String) : Option String :=
  match asStr (v.get key) with
  | some s => if s = "" then none else some s
  | none => none

end JVal

/-- Left-to-right concatenation of a list of strings (the Go
`for … { acc += s }` pattern; a right fold of `++` over `""` builds the
same string). -/
def strConcat (l : List String) : String := l.foldr (· ++ ·) ""

/-! ## Reasoning handlers

`ReasoningHandler` (part_000, `providers/chatcompletion`) has two
concrete dialects with reasoning support:

* `DefaultReasoningHandler` — single-field textual reasoning under the
  `"reasoning"` key;
* `openrouter.ReasoningHandler` — structured `"reasoning_details"`
  arrays (`providers/openrouter/reasoning.go`).
-/
/-- Handler state of `DefaultReasoningHandler` (part_000). -/
structure DefaultRH where
  modelName : String
  accumulatedThinking : List String := []
deriving DecidableEq, Repr

namespace DefaultRH

/-- `NewDefaultReasoningHandler`. -/
def new (modelName : String) : DefaultRH := { modelName }

/-- `DefaultReasoningHandler.ConvertThinkingToExtra` (part_000):
returns `(key, value, degradedText)`; `value = none` models Go `nil`. -/
def convertThinkingToExtra (parts : List ThinkingPart) (targetModel : String) :
    String × Option JVal × String :=
  let rec go : List ThinkingPart → String × String
    | [] => ("", "")
    | p :: rest =>
      let (reasoning, degraded) := go rest
      if p.thinking = "" then (reasoning, degraded)
      else if p.modelName ≠ "" ∧ p.modelName ≠ targetModel then
        (reasoning, p.thinking ++ degraded)
      else (p.thinking ++ reasoning, degraded)
  let (reasoning, degradedText) := go parts
  if reasoning = "" then ("", none, degradedText)
  else ("reasoning", some (.str reasoning), degradedText)

/-- `DefaultReasoningHandler.ExtractThinking` (part_000). -/
def extractThinking (h : DefaultRH) (delta : JVal) : DefaultRH × String × Bool :=
  match JVal.asStr (delta.get "reasoning") with
  | some reasoning =>
    if reasoning ≠ "" then
      ({ h with accumulatedThinking := h.accumulatedThinking ++ [reasoning] },
       reasoning, true)
    else (h, "", false)
  | none => (h, "", false)

/-- `DefaultReasoningHandler.FlushThinking` (part_000). -/
def flushThinking (h : DefaultRH) : DefaultRH × List ThinkingPart :=
  if h.accumulatedThinking = [] then (h, [])
  else
    ({ h with accumulatedThinking := [] },
     [{ thinking := strConcat h.accumulatedThinking, modelName := h.modelName }])

end DefaultRH

/-- Handler state of `openrouter.ReasoningHandler` (reasoning.go). -/
structure OpenRouterRH where
  modelName : String
  parts : List ThinkingPart := []
  currentPart : Option ThinkingPart := none
deriving DecidableEq, Repr

namespace OpenRouterRH

/-- `NewReasoningHandler`. -/
def new (modelName : String) : OpenRouterRH := { modelName }

/-- Detail objects produced for one `ThinkingPart` at loop index `i` in
`ReasoningHandler.ConvertThinkingToExtra` (reasoning.go), for a part
whose model matches the target.  Field insertion order follows the Go
code; lookups are key-based so order is immaterial. -/
def detailsForPart (p : ThinkingPart) (i : Nat) : List JVal :=
  if p.format = "anthropic-claude-v1" then
    if p.thinking ≠ "" ∨ p.signature ≠ "" then
      [JVal.obj
        ([("type", .str "reasoning.text"), ("index", .num i), ("format", .str p.format)]
          ++ (if p.thinking ≠ "" then [("text", JVal.str p.thinking)] else [])
          ++ (if p.signature ≠ "" then [("signature", JVal.str p.signature)] else [])
          ++ (if p.id ≠ "" then [("id", JVal.str p.id)] else []))]
    else []
  else if p.format = "openai-responses-v1" then
    (if p.thinking ≠ "" then
      [JVal.obj
        ([("type", .str "reasoning.summary"), ("summary", .str p.thinking),
          ("format", .str p.format), ("index", .num i)]
          ++ (if p.id ≠ "" then [("id", JVal.str p.id)] else []))]
     else [])
    ++ (if p.signature ≠ "" then
      [JVal.obj
        [("type", .str "reasoning.encrypted"), ("data", .str p.signature),
         ("format", .str p.format), ("index", .num i)]]
     else [])
  else
    (if p.thinking ≠ "" then
      [JVal.obj
        ([("type", .str "reasoning.text"), ("text", .str p.thinking), ("index", .num i)]
          ++ (if p.format ≠ "" then [("format", JVal.str p.format)] else [])
          ++ (if p.id ≠ "" then [("id", JVal.str p.id)] else []))]
     else [])
    ++ (if p.signature ≠ "" then
      [JVal.obj
        ([("type", .str "reasoning.encrypted"), ("data", .str p.signature), ("index", .num i)]
          ++ (if p.format ≠ "" then [("format", JVal.str p.format)] else [])
          ++ (if p.id ≠ "" then [("id", JVal.str p.id)] else []))]
     else [])

/-- Whether the loop body of `ConvertThinkingToExtra` degrades the part:
`part.ModelName != "" && part.ModelName != targetModel`. -/
def crossModel (p : ThinkingPart) (targetModel : String) : Bool :=
  p.modelName ≠ "" ∧ p.modelName ≠ targetModel

/-- Degraded text contributed by one part in `ConvertThinkingToExtra`. -/
def degradedForPart (p : ThinkingPart) (targetModel : String) : String :=
  if crossModel p targetModel ∧ p.thinking ≠ "" then
    "<thinking>\n" ++ p.thinking ++ "\n</thinking>\n"
  else ""

/-- The `details` slice built by the `for i, part := range parts` loop of
`ConvertThinkingToExtra`: cross-model parts contribute nothing, matching
parts contribute `detailsForPart` at their loop index. -/
def detailsList (parts : List ThinkingPart) (targetModel : String) : List JVal :=
  parts.enum.flatMap fun ip =>
    if crossModel ip.2 targetModel then [] else detailsForPart ip.2 ip.1

/-- `ReasoningHandler.ConvertThinkingToExtra` (reasoning.go):
`(key, value, degradedText)`; `value = none` models Go `nil`. -/
def convertThinkingToExtra (parts : List ThinkingPart) (targetModel : String) :
    String × Option JVal × String :=
  let details := detailsList parts targetModel
  let degradedText :=
    strConcat (parts.enum.map fun ip => degradedForPart ip.2 targetModel)
  if details.isEmpty then ("", none, degradedText)
  else ("reasoning_details", some (.arr details), degradedText)

/-- The loop body of `ExtractThinking` for one detail object
(reasoning.go lines 145-228): returns the updated handler plus the text
appended to `allText` plus whether `isThinking` was set. -/
def processDetail (h : OpenRouterRH) (item : JVal) : OpenRouterRH × String × Bool :=
  match item with
  | .obj _ =>
    let detailType := (JVal.asStr (item.get "type")).getD ""
    if detailType = "reasoning.text" then
      let cur := h.currentPart.getD { modelName := h.modelName }
      let cur := match item.strField "id" with
        | some id => { cur with id } | none => cur
      let cur := match item.strField "format" with
        | some format => { cur with format } | none => cur
      let (cur, text) := match item.strField "text" with
        | some text => ({ cur with thinking := cur.thinking ++ text }, text)
        | none => (cur, "")
      match item.strField "signature" with
      | some sig =>
        ({ h with parts := h.parts ++ [{ cur with signature := sig }],
                  currentPart := none }, text, true)
      | none => ({ h with currentPart := some cur }, text, true)
    else if detailType = "reasoning.summary" then
      let cur := h.currentPart.getD { modelName := h.modelName }
      let cur := match item.strField "id" with
        | some id => { cur with id } | none => cur
      let cur := match item.strField "format" with
        | some format => { cur with format } | none => cur
      let (cur, text) := match item.strField "summary" with
        | some s => ({ cur with thinking := cur.thinking ++ s }, s)
        | none => (cur, "")
      ({ h with currentPart := some cur }, text, true)
    else if detailType = "reasoning.encrypted" then
      let cur := h.currentPart.getD { modelName := h.modelName }
      let cur := match item.strField "id" with
        | some id => { cur with id } | none => cur
      let cur := match item.strField "data" with
        | some data => { cur with signature := data } | none => cur
      let cur := match item.strField "format" with
        | some format => { cur with format } | none => cur
      ({ h with parts := h.parts ++ [cur], currentPart := none }, "", true)
    else
      -- unknown detail type: `isThinking = true` was already set
      (h, "", true)
  | _ => (h, "", false)  -- non-object items are skipped by the type assertion

/-- `ReasoningHandler.ExtractThinking` (reasoning.go). -/
def extractThinking (h : OpenRouterRH) (delta : JVal) : OpenRouterRH × String × Bool :=
  match delta.get "reasoning_details" with
  | some (.arr items) =>
    if items.isEmpty then (h, "", false)
    else
      let (h, allText, isThinking) :=
        items.foldl (fun (acc : OpenRouterRH × String × Bool) item =>
          let (h, t, think) := processDetail acc.1 item
          (h, acc.2.1 ++ t, acc.2.2 || think)) (h, "", false)
      if allText ≠ "" then (h, allText, true) else (h, "", isThinking)
  | _ => (h, "", false)

/-- `ReasoningHandler.FlushThinking` (reasoning.go). -/
def flushThinking (h : OpenRouterRH) : OpenRouterRH × List ThinkingPart :=
  let h :=
    match h.currentPart with
    | some cur =>
      if cur.thinking ≠ "" then
        { h with parts := h.parts ++ [cur], currentPart := none }
      else h
    | none => h
  if h.parts = [] then (h, [])
  else ({ h with parts := [] }, h.parts)

end OpenRouterRH

/-! ## Chat-completion stream adapter

Embedding of `Stream` from part_003 (`providers/chatcompletion`
package, the `step.ProviderStream` implementation): accumulators,
`processChunk`, `emitStageEnd`, `flushText`, `finalize`, `Next`.

The reasoning handler is abstracted as `RHandler σ` (its two mutating
methods used by the adapter); Go's handler pointer state is threaded
explicitly.  Go's `map[int]*toolCallAccumulator` becomes an
insertion-ordered association list; the unspecified `range` order of the
Go map in `finalize` becomes an explicit `order` argument, constrained
only to be a permutation of the keys. -/
/-- The two adapter-facing operations of a `ReasoningHandler`. -/
structure RHandler (σ : Type) where
  extract : σ → JVal → σ × String × Bool
  flush : σ → σ × List ThinkingPart

/-- `DefaultReasoningHandler` as an adapter handler. -/
def DefaultRH.handler : RHandler DefaultRH :=
  { extract := DefaultRH.extractThinking, flush := DefaultRH.flushThinking }

/-- `openrouter.ReasoningHandler` as an adapter handler. -/
def OpenRouterRH.handler : RHandler OpenRouterRH :=
  { extract := OpenRouterRH.extractThinking, flush := OpenRouterRH.flushThinking }

/-- One tool-call fragment of a wire chunk:
`choices[0].delta.tool_calls[k]` with its integer `index`. -/
structure Fragment where
  index : Nat
  id : String := ""
  name : String := ""
  arguments : String := ""
deriving DecidableEq, Repr

/-- One wire chunk (`openai.ChatCompletionChunk`), restricted to the
fields the adapter reads.  `usage = some u` models a chunk whose
`Usage.TotalTokens > 0`; `hasChoice` models `len(chunk.Choices) > 0`;
`reasoning` and `reasoningDetails` are the delta's extra fields seen by
the reasoning handlers through `deltaToMap`. -/
structure Chunk where
  usage : Option Usage := none
  hasChoice : Bool := true
  finishReason : String := ""
  content : String := ""
  reasoning : String := ""
  reasoningDetails : Option (List JVal) := none
  toolCalls : List Fragment := []

/-- `deltaToMap` (part_003): the delta as a JSON map, restricted to the
keys the reasoning handlers inspect. -/
def Chunk.deltaMap (c : Chunk) : JVal :=
  .obj ((if c.reasoning ≠ "" then [("reasoning", JVal.str c.reasoning)] else [])
    ++ (match c.reasoningDetails with
        | some ds => [("reasoning_details", JVal.arr ds)]
        | none => []))

/-- `streamStage` (part_003). -/
inductive Stage where
  | waiting
  | thinking
  | text
  | tool
deriving DecidableEq, Repr

/-- `toolCallAccumulator` (part_003). -/
structure ToolCallAcc where
  id : String := ""
  name : String := ""
  argsStr : String := ""
deriving DecidableEq, Repr

/-- Lookup in the accumulator map (Go `m[idx]`). -/
def lookupAcc (m : List (Nat × ToolCallAcc)) (k : Nat) : Option ToolCallAcc :=
  match m with
  | [] => none
  | e :: es => if e.1 = k then some e.2 else lookupAcc es k

/-- In-place update of the accumulator at key `k` (pointer mutation in
Go). -/
def updateAcc (m : List (Nat × ToolCallAcc)) (k : Nat) (f : ToolCallAcc → ToolCallAcc) :
    List (Nat × ToolCallAcc) :=
  m.map fun e => if e.1 = k then (e.1, f e.2) else e

/-- Mutable state of `Stream` (part_003), minus the transport handle. -/
structure StreamState (σ : Type) where
  stage : Stage := .waiting
  done : Bool := false
  err : Option String := none
  pending : List ProviderUpdate := []
  textContent : List String := []
  toolCalls : List (Nat × ToolCallAcc) := []
  stopReason : String := ""
  usage : Option Usage := none
  parts : List Part := []
  hstate : σ

/-- A fresh stream (`NewStream`). -/
def initStream {σ : Type} (h0 : σ) : StreamState σ := { hstate := h0 }

/-- `Stream.enqueue`. -/
def enqueue {σ : Type} (s : StreamState σ) (u : ProviderUpdate) : StreamState σ :=
  { s with pending := s.pending ++ [u] }

/-- `Stream.flushText` (part_003). -/
def flushText {σ : Type} (s : StreamState σ) : StreamState σ :=
  if s.textContent = [] then s
  else
    { s with parts := s.parts ++ [.text (strConcat s.textContent)], textContent := [] }

/-- `Stream.emitStageEnd` (part_003): flush the accumulator of the
current stage into `parts`. -/
def emitStageEnd {σ : Type} (H : RHandler σ) (s : StreamState σ) : StreamState σ :=
  match s.stage with
  | .thinking =>
    let (hs, tparts) := H.flush s.hstate
    { s with hstate := hs, parts := s.parts ++ tparts.map Part.thinking }
  | .text => flushText s
  | _ => s

/-- `mapFinishReason` (part_003). -/
def mapFinishReason (reason : String) : String :=
  if reason = "stop" then "stop"
  else if reason = "length" then "length"
  else if reason = "tool_calls" then "tool_use"
  else "stop"

/-- The accumulator mutations of the tool loop for one fragment:
overwrite `id` / `name` when present, append `arguments`. -/
def fragUpdate (f : Fragment) : ToolCallAcc → ToolCallAcc := fun a =>
  let a := if f.id ≠ "" then { a with id := f.id } else a
  let a := if f.name ≠ "" then { a with name := f.name } else a
  if f.arguments ≠ "" then { a with argsStr := a.argsStr ++ f.arguments } else a

/-- The accumulator part of the tool-loop body: ensure the accumulator
exists, apply `fragUpdate`, and emit a ToolCallDelta when the fragment
carried argument bytes. -/
def fragCore {σ : Type} (s : StreamState σ) (f : Fragment) : StreamState σ :=
  let s :=
    if (lookupAcc s.toolCalls f.index).isNone then
      { s with toolCalls := s.toolCalls ++ [(f.index, {})] }
    else s
  let s := { s with toolCalls := updateAcc s.toolCalls f.index (fragUpdate f) }
  if f.arguments ≠ "" then
    let acc := (lookupAcc s.toolCalls f.index).getD {}
    enqueue s (.delta (.toolCallDelta acc.id acc.name f.arguments f.index))
  else s

/-- The `for _, tc := range delta.ToolCalls` loop body of
`Stream.processChunk` (part_003) for one fragment. -/
def processFragment {σ : Type} (H : RHandler σ) (s : StreamState σ) (f : Fragment) :
    StreamState σ :=
  let s := if s.stage ≠ Stage.tool then { emitStageEnd H s with stage := Stage.tool } else s
  fragCore s f

/-- The usage snapshot step of `Stream.processChunk` (part_003):
last-writer-wins overwrite when the chunk carries usage. -/
def chunkUsage {σ : Type} (s : StreamState σ) (c : Chunk) : StreamState σ :=
  match c.usage with
  | some u => { s with usage := some u }
  | none => s

/-- The finish-reason step of `Stream.processChunk` (part_003). -/
def chunkFinish {σ : Type} (s : StreamState σ) (c : Chunk) : StreamState σ :=
  if c.finishReason ≠ "" then { s with stopReason := mapFinishReason c.finishReason }
  else s

/-- The delta-dispatch of `Stream.processChunk` (part_003): reasoning
first (with early return), then visible content (early return), then
the tool-call loop. -/
def chunkBody {σ : Type} (H : RHandler σ) (s : StreamState σ) (c : Chunk) :
    StreamState σ :=
  match H.extract s.hstate c.deltaMap with
  | (hs, text, isThinking) =>
    let s := { s with hstate := hs }
    if isThinking then
      let s :=
        if s.stage ≠ Stage.thinking then { emitStageEnd H s with stage := Stage.thinking }
        else s
      enqueue s (.delta (.thinkingDelta text))
    else if c.content ≠ "" then
      let s :=
        if s.stage ≠ Stage.text then { emitStageEnd H s with stage := Stage.text }
        else s
      let s := { s with textContent := s.textContent ++ [c.content] }
      enqueue s (.delta (.textDelta c.content))
    else
      c.toolCalls.foldl (processFragment H) s

/-- `Stream.processChunk` (part_003). -/
def processChunk {σ : Type} (H : RHandler σ) (s : StreamState σ) (c : Chunk) :
    StreamState σ :=
  let s := chunkUsage s c
  if !c.hasChoice then s
  else chunkBody H (chunkFinish s c) c

/-- The tool-call parts appended by `Stream.finalize` when the Go map
`s.toolCalls` is ranged over in iteration order `order`: accumulators
missing `id` or `name` are skipped. -/
def toolPartsOf (m : List (Nat × ToolCallAcc)) (order : List Nat) : List Part :=
  order.filterMap fun i =>
    match lookupAcc m i with
    | some a =>
      if a.id = "" ∨ a.name = "" then none
      else some (.toolCall { callID := a.id, name := a.name, argsJSON := a.argsStr })
    | none => none

/-- `Stream.finalize` (part_003), with `order` the iteration order of
the Go map range (any permutation of the keys). -/
def finalize {σ : Type} (H : RHandler σ) (order : List Nat) (s : StreamState σ) :
    StreamState σ :=
  let s := { s with done := true,
                    stopReason := if s.stopReason = "" then "stop" else s.stopReason }
  let s := emitStageEnd H s
  let s := { s with parts := s.parts ++ toolPartsOf s.toolCalls order }
  enqueue s (.message { parts := s.parts, usage := s.usage, stopReason := s.stopReason })

/-- Drain a whole chunk sequence through `processChunk` (the pull loop
of `Stream.Next` always processes chunks in arrival order; the pending
queue is FIFO, so `pending` of the result is the emission sequence). -/
def runChunks {σ : Type} (H : RHandler σ) (s : StreamState σ) (chunks : List Chunk) :
    StreamState σ :=
  chunks.foldl (processChunk H) s

/-- What one call of `Stream.Next` (part_003) returns. -/
inductive NextResult where
  | update (u : ProviderUpdate)
  | eof
  | fail (e : String)
deriving DecidableEq, Repr

/-- The not-yet-consumed wire stream: remaining chunks, and the
transport error (if any) reported by `stream.Err()` at exhaustion. -/
structure WireStream where
  chunks : List Chunk
  terminalErr : Option String := none

/-- `ctx.Err()` for a cancelled context. -/
def ctxCanceledErr : String := "context canceled"

/-- `Stream.dequeue` (part_003): `pending` is nonempty by assumption of
the call sites; an empty queue yields `eof` (unreachable there). -/
def dequeueModel {σ : Type} (s : StreamState σ) (w : WireStream) :
    StreamState σ × WireStream × NextResult :=
  match s.pending with
  | u :: rest => ({ s with pending := rest }, w, .update u)
  | [] => (s, w, .eof)

/-- The `for` loop of `Stream.Next` (part_003): check cancellation, pull
a chunk, process it, return the first pending update; at exhaustion
surface the transport error or finalize. -/
def nextLoop {σ : Type} (H : RHandler σ) (order : List Nat) (cancelled : Bool) :
    StreamState σ → List Chunk → Option String →
    StreamState σ × WireStream × NextResult
  | s, chunks, terminalErr =>
    if cancelled then
      ({ s with err := some ctxCanceledErr }, ⟨chunks, terminalErr⟩, .fail ctxCanceledErr)
    else
      match chunks with
      | [] =>
        match terminalErr with
        | some e => ({ s with err := some e }, ⟨[], terminalErr⟩, .fail e)
        | none =>
          let s := finalize H order s
          if s.pending.isEmpty then (s, ⟨[], terminalErr⟩, .eof)
          else dequeueModel s ⟨[], terminalErr⟩
      | c :: rest =>
        let s := processChunk H s c
        if s.pending.isEmpty then nextLoop H order cancelled s rest terminalErr
        else dequeueModel s ⟨rest, terminalErr⟩

/-- `Stream.Next` (part_003). -/
def nextModel {σ : Type} (H : RHandler σ) (order : List Nat) (cancelled : Bool)
    (s : StreamState σ) (w : WireStream) : StreamState σ × WireStream × NextResult :=
  if ¬ s.pending.isEmpty then dequeueModel s w
  else if s.done then (s, w, .eof)
  else
    match s.err with
    | some e => (s, w, .fail e)
    | none => nextLoop H order cancelled s w.chunks w.terminalErr

/-! ## Step orchestrator and tool executor

Embedding of `runStep`, `executeTools`, `executeSingleTool` and the
result constructors of package `step` (the second document of
`providers/chatcompletion/input.go`).

A tool's runtime behaviour (`Tool.Execute`) is a pure function to an
`ExecOutcome`; `errors.Is(err, context.Canceled/DeadlineExceeded)` is
the `cancelLike` flag of an error outcome.  Scheduling of `executeTools`
is nondeterministic; the per-call outcome recorded in `results` is
either the value of `executeSingleTool` or a synthesized interrupted
result, and which of the two a call receives depends only on
cancellation timing, abstracted by the oracle `interrupted` (when the
ambient context is never cancelled, no call is interrupted).  The
ordering/exclusivity structure of the scheduler is modelled separately
by the `ExecStep` trace machine below. -/
/-- `step.Message` (message.go): tagged union of the three shapes. -/
inductive Message where
  | user (parts : List Part)
  | assistant (m : AssistantMessage)
  | toolResult (m : ToolResultMessage)
deriving DecidableEq, Repr

/-- What a `Tool.Execute` call returns: a result, or an error which is
(`cancelLike`) or is not a `context.Canceled`/`DeadlineExceeded`. -/
inductive ExecOutcome where
  | ok (r : ToolResult)
  | err (cancelLike : Bool) (msg : String)

/-- A catalog entry: `Spec().Parallel` plus the `Execute` behaviour. -/
structure ToolDef where
  parallel : Bool := false
  exec : ToolCallPart → ExecOutcome

/-- The `toolMap` built from the tool list (keyed by spec name). -/
abbrev Catalog := String → Option ToolDef

/-- `interruptedToolResult` (input.go). -/
def interruptedToolResult (call : ToolCallPart) : ToolResult :=
  { callID := call.callID, name := call.name, isError := true,
    parts := [.text "Request interrupted by user for tool use"] }

/-- `toolNotFoundResult` (input.go). -/
def toolNotFoundResult (call : ToolCallPart) : ToolResult :=
  { callID := call.callID, name := call.name, isError := true,
    parts := [.text "tool not found"] }

/-- `errorToolResult` (input.go). -/
def errorToolResult (call : ToolCallPart) (msg : String) : ToolResult :=
  { callID := call.callID, name := call.name, isError := true,
    parts := [.text msg] }

/-- `executeSingleTool` (input.go).  `ctxCancelled` is `ctx.Err() != nil`
at entry. -/
def executeSingleTool (ctxCancelled : Bool) (call : ToolCallPart) (toolMap : Catalog) :
    ToolResult :=
  if ctxCancelled then interruptedToolResult call
  else
    match toolMap call.name with
    | none => toolNotFoundResult call
    | some t =>
      match t.exec call with
      | .err cancelLike msg =>
        if cancelLike then interruptedToolResult call else errorToolResult call msg
      | .ok res =>
        let res := if res.callID = "" then { res with callID := call.callID } else res
        if res.name = "" then { res with name := call.name } else res

/-- The `results` array of `executeTools` (input.go): entry `i` is the
`executeSingleTool` outcome of call `i`, or the synthesized interrupted
result when cancellation reached the call first (oracle `interrupted`). -/
def executeToolsResults (calls : List ToolCallPart) (toolMap : Catalog)
    (interrupted : Nat → Bool) : List ToolResult :=
  (List.range calls.length).map fun i =>
    match calls[i]? with
    | some call =>
      if interrupted i then interruptedToolResult call
      else executeSingleTool false call toolMap
    | none => interruptedToolResult {}

/-- `flushInOrder` message construction (input.go): one
`ToolResultMessage` per recorded result, emitted in call order. -/
def toolResultMessageOf (res : ToolResult) : ToolResultMessage :=
  { callID := res.callID, name := res.name, isError := res.isError, parts := res.parts }

/-- The messages returned by `executeTools` (input.go), in call order. -/
def executeToolsMsgs (calls : List ToolCallPart) (toolMap : Catalog)
    (interrupted : Nat → Bool) : List ToolResultMessage :=
  (executeToolsResults calls toolMap interrupted).map toolResultMessageOf

/-- `extractToolCalls` (input.go). -/
def extractToolCalls (msg : AssistantMessage) : List ToolCallPart :=
  msg.parts.filterMap fun part =>
    match part with
    | .toolCall tc => some tc
    | _ => none

/-- `handleProviderUpdate` retention: the assistant message retained by
the pull loop of `runStep` (last `ProviderMessageUpdate` wins). -/
def retainedAssistant (updates : List ProviderUpdate) : Option AssistantMessage :=
  updates.foldl (fun acc u =>
    match u with
    | .message m => some m
    | .delta _ => acc) none

/-- `runStep` (input.go), after a provider stream was obtained: the pull
loop either ends in a transport error (`streamErr`), in which case the
step fails with it, or cleanly; then the retained assistant message (or
`NoAssistantMessage` failure), tool execution, and the
`(result, ctx.Err())` pair.  The Go `(StepResult, error)` pair is the
returned `List Message × Option String` (empty list for Go `nil`). -/
def runStepModel (updates : List ProviderUpdate) (streamErr : Option String)
    (toolMap : Catalog) (cancelled : Bool) (interrupted : Nat → Bool) :
    List Message × Option String :=
  match streamErr with
  | some e => ([], some e)
  | none =>
    match retainedAssistant updates with
    | none => ([], some "step: provider stream finished without assistant message")
    | some assistantMsg =>
      let toolCalls := extractToolCalls assistantMsg
      let toolMsgs := (executeToolsMsgs toolCalls toolMap interrupted).map Message.toolResult
      let result := Message.assistant assistantMsg :: toolMsgs
      if cancelled then (result, some ctxCanceledErr) else (result, none)

/-! ## Tool-execution trace machine (scheduling / exclusivity)

Small-step interleaving model of the scheduling loop of `executeTools`
(input.go): the main goroutine walks the calls; a parallel-flagged call
is launched on a worker goroutine (`startParallel` / `go execOne`); a
worker's execution ends before it sends its completion
(`completions <- …`), which the main loop receives (`recvOne`); a
non-parallel call is executed inline only after
`for runningParallel > 0 { recvOne }` has driven the running-parallel
counter to zero.  `runningParallel` is `launched.card - received.card`.

An execution trace records `start i` / `stop i` events, the endpoints of
call `i`'s execution interval.  The inline execution of a non-parallel
call appends both events in one transition: under its guard
(`launched ⊆ received`) every launched worker has sent its completion
and exited, so no concurrent goroutine exists that could interleave an
event — the atomicity is forced by the code, not assumed.  Interrupted
calls never execute, hence produce no events. -/
/-- A trace event: call `i` begins / finishes executing. -/
inductive Ev where
  | start (i : Nat)
  | stop (i : Nat)
deriving DecidableEq, Repr

/-- Scheduler state of `executeTools` (input.go). -/
structure ExecState where
  /-- next call index of the `for idx, call := range calls` walk -/
  idx : Nat := 0
  /-- parallel calls launched on workers (`startParallel`) -/
  launched : Finset Nat := ∅
  /-- launched calls whose execution has finished (completion sent) -/
  ended : Finset Nat := ∅
  /-- completions received by the main loop (`recvOne`) -/
  received : Finset Nat := ∅
  /-- `ctx.Err() != nil` -/
  cancelled : Bool := false
  /-- events so far, oldest first -/
  trace : List Ev := []

/-- `ok && tool.Spec().Parallel` (input.go): an absent catalog entry is
non-parallel. -/
def parallelFlag (toolMap : Catalog) (name : String) : Bool :=
  match toolMap name with
  | some t => t.parallel
  | none => false

/-- One scheduler transition of `executeTools` (input.go) for the call
list `calls` against `toolMap`. -/
inductive ExecStep (calls : List String) (toolMap : Catalog) : ExecState → ExecState → Prop
  /-- `startParallel`: the walk launches a parallel call on a worker. -/
  | launch (s : ExecState) (name : String) :
      calls[s.idx]? = some name →
      parallelFlag toolMap name = true →
      s.cancelled = false →
      ExecStep calls toolMap s
        { s with idx := s.idx + 1, launched := insert s.idx s.launched,
                 trace := s.trace ++ [.start s.idx] }
  /-- a worker's `executeSingleTool` returns (it then sends its
  completion and exits). -/
  | workerStop (s : ExecState) (j : Nat) :
      j ∈ s.launched → j ∉ s.ended →
      ExecStep calls toolMap s
        { s with ended := insert j s.ended, trace := s.trace ++ [.stop j] }
  /-- `recvOne` receives a completion (sent only after the worker
  stopped). -/
  | recv (s : ExecState) (j : Nat) :
      j ∈ s.ended → j ∉ s.received →
      ExecStep calls toolMap s { s with received := insert j s.received }
  /-- inline execution of a non-parallel call: only when every launched
  worker's completion has been received (`runningParallel == 0`) and the
  context is live; both interval endpoints are appended (no other
  goroutine exists). -/
  | inline (s : ExecState) (name : String) :
      calls[s.idx]? = some name →
      parallelFlag toolMap name = false →
      s.cancelled = false →
      s.launched ⊆ s.received →
      ExecStep calls toolMap s
        { s with idx := s.idx + 1,
                 trace := s.trace ++ [.start s.idx, .stop s.idx] }
  /-- a cancelled walk records an interrupted result without executing
  (`markInterruptedFrom` / the post-wait `ctx.Err()` check). -/
  | skip (s : ExecState) (name : String) :
      calls[s.idx]? = some name →
      s.cancelled = true →
      ExecStep calls toolMap s { s with idx := s.idx + 1 }
  /-- the ambient context gets cancelled. -/
  | cancel (s : ExecState) :
      s.cancelled = false →
      ExecStep calls toolMap s { s with cancelled := true }

/-- Reachable scheduler states. -/
def ExecReachable (calls : List String) (toolMap : Catalog) (s : ExecState) : Prop :=
  Relation.ReflTransGen (ExecStep calls toolMap) {} s

/-! ## Request builder (input.go, first document) -/
/-- The placeholder sent for tool results with no text content. -/
def emptyToolPlaceholder : String :=
  "<system-reminder>Tool ran without output or errors</system-reminder>"

/-- The concatenation `content += p.Text` over the message's text parts
in `convertToolMessage` (input.go). -/
def textConcat (parts : List Part) : String :=
  strConcat (parts.filterMap fun p =>
    match p with
    | .text t => some t
    | _ => none)

/-- The wire shape of `openai.ToolMessage(content, callID)`. -/
structure WireToolMessage where
  content : String
  toolCallID : String
deriving DecidableEq, Repr

/-- `convertToolMessage` (input.go). -/
def convertToolMessage (m : ToolResultMessage) : WireToolMessage :=
  let content := textConcat m.parts
  { content := if content = "" then emptyToolPlaceholder else content,
    toolCallID := m.callID }

/-! ## C3 — a reasoning fragment short-circuits the rest of its chunk -/
/-- A chunk carrying fragments of all three kinds at once. -/
def mixedChunk : Chunk :=
  { reasoning := "R", content := "A",
    toolCalls := [{ index := 0, id := "c1", name := "t", arguments := "{}" }] }

/-! ## C4 — cancellation while awaiting a chunk -/
/-- A mid-stream adapter state: two text fragments accumulated, all
previously enqueued updates already consumed by the reader. -/
def c4State : StreamState DefaultRH :=
  { stage := .text, textContent := ["Spring", " wind"], hstate := DefaultRH.new "m" }

/-! ## C7 — tool-call arguments round-trip -/
/-- The `argsDelta` strings of the ToolCallDelta updates emitted for the
tool call at wire index `i`, in emission order. -/
def toolArgsDeltasFor (ups : List ProviderUpdate) (i : Nat) : List String :=
  ups.filterMap fun u =>
    match u with
    | .delta (.toolCallDelta _ _ args j) => if j = i then some args else none
    | _ => none

/-- The arguments-round-trip invariant: every accumulator's `argsStr`
equals the concatenation of the `argsDelta` strings emitted so far for
its wire index, and indices without an accumulator have no emitted
argument deltas. -/
def ArgsInvOn (tc : List (Nat × ToolCallAcc)) (ups : List ProviderUpdate) : Prop :=
  ∀ i : Nat,
    (∀ acc, lookupAcc tc i = some acc →
      acc.argsStr = strConcat (toolArgsDeltasFor ups i)) ∧
    (lookupAcc tc i = none → toolArgsDeltasFor ups i = [])

/-- Chunk sequence for the C7 witness: two tool calls whose argument
bytes arrive in fragments (the second fragment of call 0 carries bytes
with no id or name). -/
def c7Chunks : List Chunk :=
  [{ toolCalls := [{ index := 0, id := "c1", name := "add", arguments := "alpha," }] },
   { toolCalls := [{ index := 0, arguments := "beta" }] },
   { toolCalls := [{ index := 1, id := "c2", name := "add", arguments := "gamma" }] }]

/-! ## C8 — reasoning round-trip -/
/-- The four fields the round-trip claim compares. -/
def keyFields (q : ThinkingPart) : String × String × String × String :=
  (q.thinking, q.signature, q.format, q.modelName)

/-- Encode a stored thinking part for a request with the openrouter
(structured `reasoning_details`) handler and feed the resulting
extra-field value back through a fresh decoder for the same target
model, then flush. -/
def orRoundTrip (p : ThinkingPart) (targetModel : String) : List ThinkingPart :=
  match (OpenRouterRH.convertThinkingToExtra [p] targetModel).2.1 with
  | some v =>
    let h0 := OpenRouterRH.new targetModel
    (OpenRouterRH.flushThinking
      (OpenRouterRH.extractThinking h0 (.obj [("reasoning_details", v)])).1).2
  | none => []

/-- Same round-trip through the single-field textual
(`DefaultReasoningHandler`) dialect. -/
def defaultRoundTrip (p : ThinkingPart) (targetModel : String) : List ThinkingPart :=
  match (DefaultRH.convertThinkingToExtra [p] targetModel).2.1 with
  | some v =>
    let h0 := DefaultRH.new targetModel
    (DefaultRH.flushThinking
      (DefaultRH.extractThinking h0 (.obj [("reasoning", v)])).1).2
  | none => []

/-! ## C2 — result count, order, and callID fidelity -/
/-- Catalog with a single tool `t` whose result carries a different,
non-empty callID. -/
def c2Catalog : Catalog := fun name =>
  if name = "t" then
    some { exec := fun _ => .ok { callID := "call-x", parts := [.text "done"] } }
  else none

/-- Witness for C6: one update stream carrying an assistant message with
two tool calls, a catalog where one tool errors and the other name is
absent. -/
def c6Assistant : AssistantMessage :=
  { parts := [.toolCall { callID := "c1", name := "boom" },
              .toolCall { callID := "c2", name := "ghost" }] }

/-- Catalog for the C6 witness: `boom` fails with a plain error. -/
def c6Catalog : Catalog := fun name =>
  if name = "boom" then some { exec := fun _ => .err false "invalid json" } else none

/-! ## C1: part order in the finalized assistant message

The spec claims: thinking parts first, then one text part, then the
tool-call parts in ascending wire index.  `claimedPartOrder` checks the
kind ordering (any violation of it also violates the full claim). -/
/-- A wire chunk carrying only visible text (`delta.content`). -/
def textChunk (t : String) : Chunk := { content := t }

/-- A wire chunk carrying only a textual reasoning delta. -/
def reasoningChunk (r : String) : Chunk := { reasoning := r }

/-- A wire chunk carrying only tool-call fragments. -/
def toolChunk (fs : List Fragment) : Chunk := { toolCalls := fs }

/-- Is this part a ThinkingPart? -/
def isThinkingPart : Part → Bool
  | .thinking _ => true
  | _ => false

/-- Is this part a ToolCallPart? -/
def isToolCallPart : Part → Bool
  | .toolCall _ => true
  | _ => false

/-- The kind ordering the spec claims for a finalized assistant message:
zero or more thinking parts, then at most one text part, then only
tool-call parts. -/
def claimedPartOrder (ps : List Part) : Bool :=
  let rest := ps.dropWhile isThinkingPart
  let rest := match rest with
    | Part.text _ :: r => r
    | r => r
  rest.all isToolCallPart

/-- The thinking parts the default handler flushes for accumulated
reasoning deltas `rs`. -/
def thinkParts (model : String) (rs : List String) : List Part :=
  if rs = [] then []
  else [.thinking { thinking := strConcat rs, modelName := model }]

/-- The text parts flushed for accumulated content fragments `ts`. -/
def textParts (ts : List String) : List Part :=
  if ts = [] then [] else [.text (strConcat ts)]

/-- The parts array after the stage flush that `finalize` performs. -/
def flushedParts {σ : Type} (H : RHandler σ) (s : StreamState σ) : List Part :=
  (emitStageEnd H s).parts

/-- Stream state after draining a block of reasoning chunks `rs`. -/
def phase1State (model : String) (rs : List String) : StreamState DefaultRH :=
  { stage := if rs = [] then Stage.waiting else Stage.thinking,
    pending := rs.map (fun r => .delta (.thinkingDelta r)),
    hstate := { modelName := model, accumulatedThinking := rs } }

/-- Stream state after additionally draining a block of text chunks. -/
def phase2State (model : String) (rs ts : List String) : StreamState DefaultRH :=
  if ts = [] then phase1State model rs
  else
    { stage := Stage.text,
      pending := rs.map (fun r => .delta (.thinkingDelta r))
        ++ ts.map (fun t => .delta (.textDelta t)),
      textContent := ts,
      parts := thinkParts model rs,
      hstate := { modelName := model, accumulatedThinking := [] } }

/-- A concrete grouped stream for the C1 witness. -/
def c1Chunks : List Chunk :=
  ["R1", "R2"].map reasoningChunk ++ ["A", "B"].map textChunk
    ++ [[{ index := 5, id := "call-1", name := "search", arguments := "x" }]].map toolChunk

/-! ## C5: exclusivity of non-parallel tool execution -/
/-- Is the call at index `i` parallel-flagged? (absent names and
out-of-range indices are non-parallel). -/
def pflagAt (calls : List String) (toolMap : Catalog) (i : Nat) : Bool :=
  match calls[i]? with
  | some name => parallelFlag toolMap name
  | none => false

/-- Scheduler invariant: completions flow worker → channel → main loop;
every traced start of a parallel call is a launched worker; every ended
call has its stop event in the trace; and every traced start of a
non-parallel call is immediately followed by its stop, with every other
start either fully finished strictly before it or begun strictly after
its stop. -/
def ExecInv (calls : List String) (toolMap : Catalog) (s : ExecState) : Prop :=
  s.ended ⊆ s.launched ∧ s.received ⊆ s.ended ∧
  (∀ (q j : Nat), s.trace[q]? = some (Ev.start j) → pflagAt calls toolMap j = true →
    j ∈ s.launched) ∧
  (∀ j : Nat, j ∈ s.ended → ∃ r : Nat, s.trace[r]? = some (Ev.stop j)) ∧
  (∀ (p i : Nat), s.trace[p]? = some (Ev.start i) → pflagAt calls toolMap i = false →
    s.trace[p + 1]? = some (Ev.stop i) ∧
    ∀ (q j : Nat), s.trace[q]? = some (Ev.start j) → q ≠ p →
      (∃ r : Nat, r < p ∧ s.trace[r]? = some (Ev.stop j)) ∨ p + 1 < q)

/-- Witness scenario for C5: a parallel `search` then a non-parallel
`write`. -/
def c5Calls : List String := ["search", "write"]

/-- Catalog for the C5 witness: only `search` exists and is parallel. -/
def c5Catalog : Catalog := fun name =>
  if name = "search" then
    some { parallel := true, exec := fun c => .ok { callID := c.callID } }
  else none

/-- After launching call 0. -/
def c5s1 : ExecState :=
  { idx := 1, launched := insert 0 ∅, ended := ∅, received := ∅,
    cancelled := false, trace := [.start 0] }

/-- After worker 0 finished. -/
def c5s2 : ExecState :=
  { idx := 1, launched := insert 0 ∅, ended := insert 0 ∅, received := ∅,
    cancelled := false, trace := [.start 0, .stop 0] }

/-- After the main loop received worker 0's completion. -/
def c5s3 : ExecState :=
  { idx := 1, launched := insert 0 ∅, ended := insert 0 ∅, received := insert 0 ∅,
    cancelled := false, trace := [.start 0, .stop 0] }

/-- After the inline execution of non-parallel call 1. -/
def c5Final : ExecState :=
  { idx := 2, launched := insert 0 ∅, ended := insert 0 ∅, received := insert 0 ∅,
    cancelled := false, trace := [.start 0, .stop 0, .start 1, .stop 1] }

/-- `strConcat` distributes over cons. -/
theorem strConcat_cons (s : String) (l : List String) :
    strConcat (s :: l) = s ++ strConcat l := rfl

theorem chunkUsage_proj {σ : Type} (s : StreamState σ) (c : Chunk) :
    (chunkUsage s c).stage = s.stage ∧ (chunkUsage s c).pending = s.pending ∧
    (chunkUsage s c).textContent = s.textContent ∧
    (chunkUsage s c).toolCalls = s.toolCalls ∧ (chunkUsage s c).hstate = s.hstate := by
  unfold chunkUsage
  cases c.usage <;> exact ⟨rfl, rfl, rfl, rfl, rfl⟩

theorem chunkFinish_proj {σ : Type} (s : StreamState σ) (c : Chunk) :
    (chunkFinish s c).stage = s.stage ∧ (chunkFinish s c).pending = s.pending ∧
    (chunkFinish s c).textContent = s.textContent ∧
    (chunkFinish s c).toolCalls = s.toolCalls ∧ (chunkFinish s c).hstate = s.hstate := by
  unfold chunkFinish
  split <;> exact ⟨rfl, rfl, rfl, rfl, rfl⟩

theorem emitStageEnd_toolCalls {σ : Type} (H : RHandler σ) (s : StreamState σ) :
    (emitStageEnd H s).toolCalls = s.toolCalls := by
  cases hst : s.stage <;> by_cases htc : s.textContent = [] <;>
    simp [emitStageEnd, flushText, hst, htc]

theorem emitStageEnd_pending {σ : Type} (H : RHandler σ) (s : StreamState σ) :
    (emitStageEnd H s).pending = s.pending := by
  cases hst : s.stage <;> by_cases htc : s.textContent = [] <;>
    simp [emitStageEnd, flushText, hst, htc]

theorem emitStageEnd_toolCalls_pending {σ : Type} (H : RHandler σ) (s : StreamState σ) :
    (emitStageEnd H s).toolCalls = s.toolCalls ∧ (emitStageEnd H s).pending = s.pending :=
  ⟨emitStageEnd_toolCalls H s, emitStageEnd_pending H s⟩

theorem emitStageEnd_textContent {σ : Type} (H : RHandler σ) (s : StreamState σ) :
    (emitStageEnd H s).textContent = s.textContent ∨
      (emitStageEnd H s).textContent = [] := by
  cases hst : s.stage <;> by_cases htc : s.textContent = [] <;>
    simp [emitStageEnd, flushText, hst, htc]

/-! # Theorems -/
/-! ## C9 — cross-model thinking degrades to text, never the extra field -/
/-- Every detail object produced for a part at loop index `i` carries
`"index" = i`. -/
theorem detailsForPart_index (p : ThinkingPart) (i : Nat) :
    ∀ d ∈ OpenRouterRH.detailsForPart p i, d.get "index" = some (.num i) := by
  intro d hd
  unfold OpenRouterRH.detailsForPart at hd
  split_ifs at hd
  all_goals
    simp only [List.mem_append, List.mem_cons, List.mem_singleton, List.not_mem_nil,
      or_false, false_or] at hd
  all_goals
    first
      | exact hd.elim
      | (rcases hd with rfl | rfl <;> rfl)
      | (rcases hd with rfl; rfl)

/-- The concatenation `degradedText` accumulates over all parts. -/
theorem openrouter_degraded_concat (parts : List ThinkingPart) (targetModel : String) :
    (OpenRouterRH.convertThinkingToExtra parts targetModel).2.2 =
      strConcat (parts.map fun p => OpenRouterRH.degradedForPart p targetModel) := by
  have hmap : (parts.enum.map fun ip => OpenRouterRH.degradedForPart ip.2 targetModel) =
      parts.map fun p => OpenRouterRH.degradedForPart p targetModel := by
    have h1 : (fun ip : Nat × ThinkingPart => OpenRouterRH.degradedForPart ip.2 targetModel)
        = (fun p => OpenRouterRH.degradedForPart p targetModel) ∘ Prod.snd := rfl
    rw [h1, ← List.map_map]
    simp
  simp only [OpenRouterRH.convertThinkingToExtra, hmap]
  split <;> rfl

/-- The `(reasoning, degradedText)` pair accumulated by the loop of
`DefaultReasoningHandler.ConvertThinkingToExtra`: matching parts feed
`reasoning`, cross-model parts feed `degradedText`. -/
theorem defaultRH_go_concat (targetModel : String) (parts : List ThinkingPart) :
    DefaultRH.convertThinkingToExtra.go targetModel parts =
      (strConcat (parts.map fun p =>
          if p.thinking = "" then ""
          else if p.modelName ≠ "" ∧ p.modelName ≠ targetModel then "" else p.thinking),
       strConcat (parts.map fun p =>
          if p.thinking = "" then ""
          else if p.modelName ≠ "" ∧ p.modelName ≠ targetModel then p.thinking else "")) := by
  induction parts with
  | nil => rfl
  | cons p rest ih =>
    rw [DefaultRH.convertThinkingToExtra.go, ih]
    by_cases h1 : p.thinking = "" <;>
      by_cases h2 : p.modelName ≠ "" ∧ p.modelName ≠ targetModel <;>
      simp only [List.map_cons, strConcat_cons, h1, h2, if_true, if_false,
        ite_true, ite_false, ne_eq, not_false_iff] <;>
      simp [h1, h2]

/-- C9: a ThinkingPart whose modelName differs from the target model is
returned only in `degradedText` and never reaches the extra field:
(a) every `reasoning_details` entry built by the openrouter handler
originates from a part whose modelName is empty or equal to the target
(witnessed by its `index`); (b) its degraded text is exactly the
per-part degradation concatenated over all parts, the cross-model parts
contributing their thinking wrapped in `<thinking>` tags; (c) the
default (single-field textual) handler puts only matching parts'
thinking into the `reasoning` value and exactly the cross-model parts'
thinking into degraded text. -/
theorem crossmodel_thinking_degrades (parts : List ThinkingPart) (targetModel : String) :
    (∀ d ∈ OpenRouterRH.detailsList parts targetModel,
      ∃ (j : Nat) (q : ThinkingPart),
        parts[j]? = some q ∧ OpenRouterRH.crossModel q targetModel = false ∧
          d.get "index" = some (.num (j : Int))) ∧
    (OpenRouterRH.convertThinkingToExtra parts targetModel).2.2 =
      strConcat (parts.map fun p => OpenRouterRH.degradedForPart p targetModel) ∧
    (DefaultRH.convertThinkingToExtra parts targetModel).2.2 =
      strConcat (parts.map fun p =>
        if p.thinking = "" then ""
        else if p.modelName ≠ "" ∧ p.modelName ≠ targetModel then p.thinking else "") ∧
    ((DefaultRH.convertThinkingToExtra parts targetModel).2.1 = none ∨
      (DefaultRH.convertThinkingToExtra parts targetModel).2.1 =
        some (.str (strConcat (parts.map fun p =>
          if p.thinking = "" then ""
          else if p.modelName ≠ "" ∧ p.modelName ≠ targetModel then "" else p.thinking)))) := by
  refine ⟨?_, openrouter_degraded_concat parts targetModel, ?_, ?_⟩
  · intro d hd
    unfold OpenRouterRH.detailsList at hd
    rw [List.mem_flatMap] at hd
    obtain ⟨ip, hip, hd⟩ := hd
    by_cases hc : OpenRouterRH.crossModel ip.2 targetModel
    · simp [hc] at hd
    · refine ⟨ip.1, ip.2, List.mem_enum_iff_getElem?.mp hip, by simpa using hc, ?_⟩
      rw [if_neg hc] at hd
      exact detailsForPart_index ip.2 ip.1 d hd
  · unfold DefaultRH.convertThinkingToExtra
    rw [defaultRH_go_concat]
    dsimp only
    split_ifs <;> rfl
  · unfold DefaultRH.convertThinkingToExtra
    rw [defaultRH_go_concat]
    dsimp only
    by_cases h : strConcat (parts.map fun p =>
        if p.thinking = "" then ""
        else if p.modelName ≠ "" ∧ p.modelName ≠ targetModel then "" else p.thinking) = ""
    · left; simp [h]
    · right; simp [h]

/-- Witness for C9: two parts for target model `m`, the first from a
different model `other`, the second matching; the single detail carries
index 1 (the matching part), and the degraded text is the wrapped
thinking of the cross-model part. -/
theorem crossmodel_thinking_degrades_witness :
    (∃ (j : Nat) (q : ThinkingPart),
      ([{ thinking := "X", modelName := "other" },
        { thinking := "T", modelName := "m" }] : List ThinkingPart)[j]? = some q ∧
      OpenRouterRH.crossModel q "m" = false ∧
      JVal.get (.obj [("type", .str "reasoning.text"), ("text", .str "T"),
        ("index", .num 1)]) "index" = some (.num 1)) ∧
    (OpenRouterRH.convertThinkingToExtra
      [{ thinking := "X", modelName := "other" },
       { thinking := "T", modelName := "m" }] "m").2.2 =
      "<thinking>\nX\n</thinking>\n" := by
  have h := crossmodel_thinking_degrades
    [{ thinking := "X", modelName := "other" }, { thinking := "T", modelName := "m" }] "m"
  refine ⟨?_, ?_⟩
  · have hmem : JVal.obj [("type", .str "reasoning.text"), ("text", .str "T"),
        ("index", .num 1)] ∈ OpenRouterRH.detailsList
          [{ thinking := "X", modelName := "other" },
           { thinking := "T", modelName := "m" }] "m" := by
      have hlist : OpenRouterRH.detailsList
          [{ thinking := "X", modelName := "other" },
           { thinking := "T", modelName := "m" }] "m" =
          [JVal.obj [("type", .str "reasoning.text"), ("text", .str "T"),
            ("index", .num 1)]] := rfl
      rw [hlist]
      exact List.mem_singleton.mpr rfl
    obtain ⟨j, q, hq, hcross, hidx⟩ := h.1 _ hmem
    exact ⟨j, q, hq, hcross, rfl⟩
  · rw [h.2.1]
    rfl

/-- Counterexample to C3 as stated: on a chunk carrying a reasoning
fragment together with visible text `A` and a complete tool-call
fragment, the adapter emits only the ThinkingDelta; the text is not
accumulated and no tool-call accumulator is created. -/
theorem processChunk_mixed_drops_text_and_tools :
    (processChunk DefaultRH.handler (initStream (DefaultRH.new "m")) mixedChunk).pending =
      [.delta (.thinkingDelta "R")] ∧
    (processChunk DefaultRH.handler (initStream (DefaultRH.new "m")) mixedChunk).textContent
      = [] ∧
    (processChunk DefaultRH.handler (initStream (DefaultRH.new "m")) mixedChunk).toolCalls
      = [] :=
  ⟨rfl, rfl, rfl⟩

/-- C3 (amended): when the reasoning handler reports a chunk's delta as
thinking, `processChunk` returns after emitting the single
ThinkingDelta: the same chunk's visible content and tool-call fragments
are not processed (the tool-call map is untouched, the only update
enqueued is the ThinkingDelta, and the chunk's content is never appended
to the text accumulator — the accumulator is either left alone or
flushed by the stage transition, never extended). -/
theorem processChunk_thinking_shortcircuits {σ : Type} (H : RHandler σ)
    (s : StreamState σ) (c : Chunk) (hs : σ) (text : String)
    (hchoice : c.hasChoice = true)
    (hextract : H.extract s.hstate c.deltaMap = (hs, text, true)) :
    (processChunk H s c).pending = s.pending ++ [.delta (.thinkingDelta text)] ∧
    (processChunk H s c).toolCalls = s.toolCalls ∧
    ((processChunk H s c).textContent = s.textContent ∨
      (processChunk H s c).textContent = []) := by
  obtain ⟨hu1, hu2, hu3, hu4, hu5⟩ := chunkUsage_proj s c
  obtain ⟨hf1, hf2, hf3, hf4, hf5⟩ := chunkFinish_proj (chunkUsage s c) c
  have hsf1 : (chunkFinish (chunkUsage s c) c).stage = s.stage := by rw [hf1, hu1]
  have hsf2 : (chunkFinish (chunkUsage s c) c).pending = s.pending := by rw [hf2, hu2]
  have hsf3 : (chunkFinish (chunkUsage s c) c).textContent = s.textContent := by
    rw [hf3, hu3]
  have hsf4 : (chunkFinish (chunkUsage s c) c).toolCalls = s.toolCalls := by rw [hf4, hu4]
  have hsf5 : (chunkFinish (chunkUsage s c) c).hstate = s.hstate := by rw [hf5, hu5]
  unfold processChunk
  simp only [hchoice, Bool.not_true, Bool.false_eq_true, if_false, ite_false]
  unfold chunkBody
  rw [hsf5, hextract]
  dsimp only
  by_cases hstg : s.stage = Stage.thinking
  · simp only [hsf1, hstg, ne_eq, not_true_eq_false, if_false, ite_false, enqueue]
    exact ⟨by simp [hsf2], by simp [hsf4], Or.inl (by simp [hsf3])⟩
  · simp only [hsf1, hstg, ne_eq, not_false_iff, if_true, ite_true, enqueue]
    refine ⟨?_, ?_, ?_⟩
    · simp [emitStageEnd_pending, hsf2]
    · simp [emitStageEnd_toolCalls, hsf4]
    · rcases emitStageEnd_textContent H
        { chunkFinish (chunkUsage s c) c with stage := s.stage, hstate := hs } with h | h
      · exact Or.inl (h.trans hsf3)
      · exact Or.inr h

/-- Witness for C3 (amended) at `mixedChunk`. -/
theorem processChunk_thinking_shortcircuits_witness :
    (processChunk DefaultRH.handler (initStream (DefaultRH.new "m")) mixedChunk).pending =
      [] ++ [.delta (.thinkingDelta "R")] ∧
    (processChunk DefaultRH.handler (initStream (DefaultRH.new "m")) mixedChunk).toolCalls
      = [] ∧
    ((processChunk DefaultRH.handler (initStream (DefaultRH.new "m")) mixedChunk).textContent
        = [] ∨
      (processChunk DefaultRH.handler (initStream (DefaultRH.new "m")) mixedChunk).textContent
        = []) :=
  processChunk_thinking_shortcircuits DefaultRH.handler (initStream (DefaultRH.new "m"))
    mixedChunk { modelName := "m", accumulatedThinking := ["R"] } "R" rfl rfl

/-- Counterexample to C4 as stated: with text accumulated and the
context cancelled while awaiting the next chunk, `Next` returns the
context error; the stream is not finalized (`done` is still false),
nothing is pending, and a subsequent `Next` returns the recorded error
again — no MessageUpdate carrying the partial AssistantMessage is ever
delivered. -/
theorem next_cancelled_counterexample :
    nextModel DefaultRH.handler [] true c4State ⟨[], none⟩ =
      ({ c4State with err := some ctxCanceledErr }, ⟨[], none⟩, .fail ctxCanceledErr) ∧
    ({ c4State with err := some ctxCanceledErr } : StreamState DefaultRH).done = false ∧
    ({ c4State with err := some ctxCanceledErr } : StreamState DefaultRH).pending = [] ∧
    nextModel DefaultRH.handler [] false
        { c4State with err := some ctxCanceledErr } ⟨[], none⟩ =
      ({ c4State with err := some ctxCanceledErr }, ⟨[], none⟩, .fail ctxCanceledErr) :=
  ⟨rfl, rfl, rfl, rfl⟩

/-- C4 (amended): if the surrounding context is cancelled while the
adapter is awaiting the next chunk (nothing pending, stream neither done
nor failed), `Next` records the context error and returns it without
finalizing: the state is unchanged except for `err`, so no MessageUpdate
is produced before end of stream. -/
theorem next_cancelled_no_finalize {σ : Type} (H : RHandler σ) (order : List Nat)
    (s : StreamState σ) (w : WireStream)
    (hp : s.pending = []) (hd : s.done = false) (he : s.err = none) :
    nextModel H order true s w =
      ({ s with err := some ctxCanceledErr }, w, .fail ctxCanceledErr) := by
  unfold nextModel
  rw [hp, hd]
  simp only [List.isEmpty_nil, not_true, if_false, Bool.false_eq_true, ite_false, he]
  unfold nextLoop
  simp
  exact ⟨hd, hp⟩

/-- Witness for C4 (amended) at `c4State`. -/
theorem next_cancelled_no_finalize_witness :
    nextModel DefaultRH.handler [] true c4State ⟨[], none⟩ =
      ({ c4State with err := some ctxCanceledErr }, ⟨[], none⟩, .fail ctxCanceledErr) :=
  next_cancelled_no_finalize DefaultRH.handler [] c4State ⟨[], none⟩ rfl rfl rfl

theorem toolArgsDeltasFor_append (ups vs : List ProviderUpdate) (i : Nat) :
    toolArgsDeltasFor (ups ++ vs) i = toolArgsDeltasFor ups i ++ toolArgsDeltasFor vs i :=
  List.filterMap_append ups vs _

theorem strConcat_append (l₁ l₂ : List String) :
    strConcat (l₁ ++ l₂) = strConcat l₁ ++ strConcat l₂ := by
  induction l₁ with
  | nil =>
    simp only [List.nil_append]
    have : strConcat [] = "" := rfl
    rw [this]
    simp
  | cons x xs ih =>
    simp only [List.cons_append, strConcat_cons, ih, String.append_assoc]

theorem lookupAcc_append_self (m : List (Nat × ToolCallAcc)) (k : Nat) (a : ToolCallAcc)
    (h : lookupAcc m k = none) : lookupAcc (m ++ [(k, a)]) k = some a := by
  induction m with
  | nil => simp [lookupAcc]
  | cons e es ih =>
    by_cases he : e.1 = k
    · simp [lookupAcc, he] at h
    · simp only [lookupAcc, he, if_false, ite_false] at h
      simpa [lookupAcc, he] using ih h

theorem lookupAcc_append_ne (m : List (Nat × ToolCallAcc)) (k j : Nat) (a : ToolCallAcc)
    (h : j ≠ k) : lookupAcc (m ++ [(k, a)]) j = lookupAcc m j := by
  have hkj : ¬ k = j := fun hh => h hh.symm
  induction m with
  | nil => simp [lookupAcc, hkj]
  | cons e es ih =>
    by_cases he : e.1 = j <;> simp [lookupAcc, he, ih]

theorem lookupAcc_update_self (m : List (Nat × ToolCallAcc)) (k : Nat)
    (f : ToolCallAcc → ToolCallAcc) :
    lookupAcc (updateAcc m k f) k = (lookupAcc m k).map f := by
  induction m with
  | nil => simp [lookupAcc, updateAcc]
  | cons e es ih =>
    simp only [updateAcc] at ih ⊢
    by_cases he : e.1 = k <;> simp [lookupAcc, he, ih]

theorem lookupAcc_update_ne (m : List (Nat × ToolCallAcc)) (k j : Nat)
    (f : ToolCallAcc → ToolCallAcc) (h : j ≠ k) :
    lookupAcc (updateAcc m k f) j = lookupAcc m j := by
  have hkj : ¬ k = j := fun hh => h hh.symm
  induction m with
  | nil => simp [lookupAcc, updateAcc]
  | cons e es ih =>
    simp only [updateAcc] at ih ⊢
    by_cases he : e.1 = k
    · have hne : ¬ e.1 = j := by rw [he]; exact fun hh => h hh.symm
      simp [lookupAcc, he, hne, hkj, ih]
    · by_cases hej : e.1 = j <;> simp [lookupAcc, he, hej, h, ih]

theorem argsInv_insert (tc : List (Nat × ToolCallAcc)) (ups : List ProviderUpdate)
    (k : Nat) (hinv : ArgsInvOn tc ups) (hnone : lookupAcc tc k = none) :
    ArgsInvOn (tc ++ [(k, ({ } : ToolCallAcc))]) ups := by
  intro i
  by_cases hik : i = k
  · subst hik
    refine ⟨?_, ?_⟩
    · intro acc hacc
      rw [lookupAcc_append_self _ _ _ hnone] at hacc
      cases hacc
      have hempty := (hinv i).2 hnone
      show "" = strConcat (toolArgsDeltasFor ups i)
      rw [hempty]
      rfl
    · intro hn
      rw [lookupAcc_append_self _ _ _ hnone] at hn
      cases hn
  · refine ⟨?_, ?_⟩
    · intro acc hacc
      rw [lookupAcc_append_ne _ _ _ _ hik] at hacc
      exact (hinv i).1 acc hacc
    · intro hn
      rw [lookupAcc_append_ne _ _ _ _ hik] at hn
      exact (hinv i).2 hn

theorem toolArgsDeltasFor_single_self (cid cname args : String) (k : Nat) :
    toolArgsDeltasFor [.delta (.toolCallDelta cid cname args k)] k = [args] := by
  simp [toolArgsDeltasFor]

theorem toolArgsDeltasFor_single_ne (cid cname args : String) (k i : Nat) (h : i ≠ k) :
    toolArgsDeltasFor [.delta (.toolCallDelta cid cname args k)] i = [] := by
  simp [toolArgsDeltasFor]
  intro hk
  exact absurd hk.symm h

theorem argsInv_update_emit (tc : List (Nat × ToolCallAcc)) (ups : List ProviderUpdate)
    (k : Nat) (g : ToolCallAcc → ToolCallAcc) (args cid cname : String) (a0 : ToolCallAcc)
    (hsome : lookupAcc tc k = some a0)
    (hg : ∀ a, (g a).argsStr = a.argsStr ++ args)
    (hinv : ArgsInvOn tc ups) :
    ArgsInvOn (updateAcc tc k g)
      (ups ++ [.delta (.toolCallDelta cid cname args k)]) := by
  intro i
  by_cases hik : i = k
  · subst hik
    refine ⟨?_, ?_⟩
    · intro acc hacc
      rw [lookupAcc_update_self, hsome] at hacc
      simp only [Option.map] at hacc
      cases hacc
      rw [hg a0, (hinv i).1 a0 hsome, toolArgsDeltasFor_append, strConcat_append,
        toolArgsDeltasFor_single_self]
      have h1 : strConcat [args] = args ++ "" := rfl
      rw [h1]
      simp
    · intro hn
      rw [lookupAcc_update_self, hsome] at hn
      simp only [Option.map] at hn
      cases hn
  · refine ⟨?_, ?_⟩
    · intro acc hacc
      rw [lookupAcc_update_ne _ _ _ _ hik] at hacc
      rw [toolArgsDeltasFor_append, toolArgsDeltasFor_single_ne _ _ _ _ _ hik,
        List.append_nil]
      exact (hinv i).1 acc hacc
    · intro hn
      rw [lookupAcc_update_ne _ _ _ _ hik] at hn
      rw [toolArgsDeltasFor_append, toolArgsDeltasFor_single_ne _ _ _ _ _ hik,
        List.append_nil]
      exact (hinv i).2 hn

theorem argsInv_update_noemit (tc : List (Nat × ToolCallAcc)) (ups : List ProviderUpdate)
    (k : Nat) (g : ToolCallAcc → ToolCallAcc)
    (hg : ∀ a, (g a).argsStr = a.argsStr)
    (hinv : ArgsInvOn tc ups) :
    ArgsInvOn (updateAcc tc k g) ups := by
  intro i
  by_cases hik : i = k
  · subst hik
    refine ⟨?_, ?_⟩
    · intro acc hacc
      rw [lookupAcc_update_self] at hacc
      cases hl : lookupAcc tc i with
      | none => rw [hl] at hacc; cases hacc
      | some a0 =>
        rw [hl] at hacc
        simp only [Option.map] at hacc
        cases hacc
        rw [hg a0]
        exact (hinv i).1 a0 hl
    · intro hn
      rw [lookupAcc_update_self] at hn
      cases hl : lookupAcc tc i with
      | none => exact (hinv i).2 hl
      | some a0 => rw [hl] at hn; simp only [Option.map] at hn; cases hn
  · refine ⟨?_, ?_⟩
    · intro acc hacc
      rw [lookupAcc_update_ne _ _ _ _ hik] at hacc
      exact (hinv i).1 acc hacc
    · intro hn
      rw [lookupAcc_update_ne _ _ _ _ hik] at hn
      exact (hinv i).2 hn

theorem fragUpdate_argsStr (f : Fragment) (a : ToolCallAcc) :
    (fragUpdate f a).argsStr =
      if f.arguments ≠ "" then a.argsStr ++ f.arguments else a.argsStr := by
  unfold fragUpdate
  by_cases h1 : f.id = "" <;> by_cases h2 : f.name = "" <;>
    by_cases h3 : f.arguments = "" <;> simp [h1, h2, h3]

theorem argsInv_fragCore {σ : Type} (s : StreamState σ) (f : Fragment)
    (hinv : ArgsInvOn s.toolCalls s.pending) :
    ArgsInvOn (fragCore s f).toolCalls (fragCore s f).pending := by
  unfold fragCore
  by_cases c2 : lookupAcc s.toolCalls f.index = none
  · have hisnone : (lookupAcc s.toolCalls f.index).isNone = true := by rw [c2]; rfl
    simp only [hisnone, if_true, ite_true]
    have hinv2 := argsInv_insert s.toolCalls s.pending f.index hinv c2
    have hsome2 := lookupAcc_append_self s.toolCalls f.index ({ } : ToolCallAcc) c2
    by_cases c3 : f.arguments = ""
    · simp only [c3, ne_eq, not_true_eq_false, if_false, ite_false]
      exact argsInv_update_noemit _ _ _ _
        (fun a => by rw [fragUpdate_argsStr]; simp [c3]) hinv2
    · simp only [c3, ne_eq, not_false_iff, if_true, ite_true, enqueue]
      exact argsInv_update_emit _ _ _ _ _ _ _ _ hsome2
        (fun a => by rw [fragUpdate_argsStr]; simp [c3]) hinv2
  · obtain ⟨a0, ha0⟩ := Option.ne_none_iff_exists'.mp c2
    have hisnone : (lookupAcc s.toolCalls f.index).isNone = false := by rw [ha0]; rfl
    simp only [hisnone, Bool.false_eq_true, if_false, ite_false]
    by_cases c3 : f.arguments = ""
    · simp only [c3, ne_eq, not_true_eq_false, if_false, ite_false]
      exact argsInv_update_noemit _ _ _ _
        (fun a => by rw [fragUpdate_argsStr]; simp [c3]) hinv
    · simp only [c3, ne_eq, not_false_iff, if_true, ite_true, enqueue]
      exact argsInv_update_emit _ _ _ _ _ _ _ _ ha0
        (fun a => by rw [fragUpdate_argsStr]; simp [c3]) hinv

theorem argsInv_processFragment {σ : Type} (H : RHandler σ) (s : StreamState σ)
    (f : Fragment) (hinv : ArgsInvOn s.toolCalls s.pending) :
    ArgsInvOn (processFragment H s f).toolCalls (processFragment H s f).pending := by
  obtain ⟨hTC, hPD⟩ := emitStageEnd_toolCalls_pending H s
  unfold processFragment
  by_cases c1 : s.stage = Stage.tool
  · simp only [c1, ne_eq, not_true_eq_false, if_false, ite_false]
    exact argsInv_fragCore s f hinv
  · simp only [c1, ne_eq, not_false_iff, if_true, ite_true]
    refine argsInv_fragCore _ f ?_
    dsimp only
    rw [hTC, hPD]
    exact hinv

theorem argsInv_append_nontool (tc : List (Nat × ToolCallAcc)) (ups us : List ProviderUpdate)
    (hus : ∀ i, toolArgsDeltasFor us i = []) (hinv : ArgsInvOn tc ups) :
    ArgsInvOn tc (ups ++ us) := by
  intro i
  refine ⟨?_, ?_⟩
  · intro acc hacc
    rw [toolArgsDeltasFor_append, hus i, List.append_nil]
    exact (hinv i).1 acc hacc
  · intro hn
    rw [toolArgsDeltasFor_append, hus i, List.append_nil]
    exact (hinv i).2 hn

/-- `chunkBody` either leaves the tool-call map alone and appends only
non-tool updates, or is the tool loop run from a state with the same
map and queue. -/
theorem chunkBody_toolCalls_pending {σ : Type} (H : RHandler σ) (s : StreamState σ)
    (c : Chunk) :
    (∃ us : List ProviderUpdate,
      (chunkBody H s c).toolCalls = s.toolCalls ∧
      (chunkBody H s c).pending = s.pending ++ us ∧
      (∀ i, toolArgsDeltasFor us i = [])) ∨
    (∃ s' : StreamState σ, s'.toolCalls = s.toolCalls ∧ s'.pending = s.pending ∧
      chunkBody H s c = c.toolCalls.foldl (processFragment H) s') := by
  unfold chunkBody
  rcases hE : H.extract s.hstate c.deltaMap with ⟨hs, text, th⟩
  dsimp only
  cases th with
  | true =>
    left
    refine ⟨[.delta (.thinkingDelta text)], ?_, ?_, fun i => rfl⟩ <;>
      by_cases hstg : s.stage = Stage.thinking <;>
      simp [enqueue, hstg, emitStageEnd_toolCalls, emitStageEnd_pending]
  | false =>
    by_cases hct : c.content = ""
    · right
      simp only [hct, ne_eq, not_true_eq_false, Bool.false_eq_true, if_false, ite_false]
      exact ⟨{ s with hstate := hs }, rfl, rfl, rfl⟩
    · left
      simp only [hct, ne_eq, not_false_iff, Bool.false_eq_true, if_false, if_true,
        ite_false, ite_true]
      refine ⟨[.delta (.textDelta c.content)], ?_, ?_, fun i => rfl⟩ <;>
        by_cases hstg : s.stage = Stage.text <;>
        simp [enqueue, hstg, emitStageEnd_toolCalls, emitStageEnd_pending]

/-- Lifting the shape of `chunkBody` through the usage and finish-reason
steps to all of `processChunk`. -/
theorem processChunk_toolCalls_pending {σ : Type} (H : RHandler σ) (s : StreamState σ)
    (c : Chunk) :
    (∃ us : List ProviderUpdate,
      (processChunk H s c).toolCalls = s.toolCalls ∧
      (processChunk H s c).pending = s.pending ++ us ∧
      (∀ i, toolArgsDeltasFor us i = [])) ∨
    (∃ s' : StreamState σ, s'.toolCalls = s.toolCalls ∧ s'.pending = s.pending ∧
      processChunk H s c = c.toolCalls.foldl (processFragment H) s') := by
  obtain ⟨hu1, hu2, hu3, hu4, hu5⟩ := chunkUsage_proj s c
  obtain ⟨hf1, hf2, hf3, hf4, hf5⟩ := chunkFinish_proj (chunkUsage s c) c
  unfold processChunk
  cases hcb : c.hasChoice with
  | false =>
    left
    refine ⟨[], ?_, ?_, fun i => rfl⟩ <;> simp [hcb, hu2, hu4]
  | true =>
    simp only [hcb, Bool.not_true, Bool.false_eq_true, if_false, ite_false]
    rcases chunkBody_toolCalls_pending H (chunkFinish (chunkUsage s c) c) c with
      ⟨us, h1, h2, h3⟩ | ⟨s', h1, h2, h3⟩
    · left
      exact ⟨us, by rw [h1, hf4, hu4], by rw [h2, hf2, hu2], h3⟩
    · right
      exact ⟨s', by rw [h1, hf4, hu4], by rw [h2, hf2, hu2], h3⟩

theorem argsInv_foldFragments {σ : Type} (H : RHandler σ) (fs : List Fragment)
    (s : StreamState σ) (hinv : ArgsInvOn s.toolCalls s.pending) :
    ArgsInvOn ((fs.foldl (processFragment H) s).toolCalls)
      ((fs.foldl (processFragment H) s).pending) := by
  induction fs generalizing s with
  | nil => exact hinv
  | cons f fs ih =>
    exact ih (processFragment H s f) (argsInv_processFragment H s f hinv)

theorem argsInv_processChunk {σ : Type} (H : RHandler σ) (s : StreamState σ) (c : Chunk)
    (hinv : ArgsInvOn s.toolCalls s.pending) :
    ArgsInvOn (processChunk H s c).toolCalls (processChunk H s c).pending := by
  rcases processChunk_toolCalls_pending H s c with ⟨us, h1, h2, h3⟩ | ⟨s', h1, h2, h3⟩
  · rw [h1, h2]
    exact argsInv_append_nontool _ _ _ h3 hinv
  · rw [h3]
    exact argsInv_foldFragments H c.toolCalls s' (by rw [h1, h2]; exact hinv)

theorem argsInv_runChunks {σ : Type} (H : RHandler σ) (chunks : List Chunk)
    (s : StreamState σ) (hinv : ArgsInvOn s.toolCalls s.pending) :
    ArgsInvOn ((runChunks H s chunks).toolCalls) ((runChunks H s chunks).pending) := by
  induction chunks generalizing s with
  | nil => exact hinv
  | cons c cs ih =>
    exact ih (processChunk H s c) (argsInv_processChunk H s c hinv)

/-- C7: after draining any chunk sequence, every tool-call accumulator's
argument bytes equal the concatenation, in arrival order, of the
`argsDelta` strings of the ToolCallDelta updates emitted for that wire
index — also across finalization, which emits no further tool deltas —
and the finalized ToolCallPart for a completed accumulator carries
exactly those bytes. -/
theorem toolcall_args_roundtrip {σ : Type} (H : RHandler σ) (h0 : σ) (chunks : List Chunk)
    (order : List Nat) (i : Nat) (acc : ToolCallAcc)
    (hacc : lookupAcc (runChunks H (initStream h0) chunks).toolCalls i = some acc) :
    acc.argsStr = strConcat (toolArgsDeltasFor
      (finalize H order (runChunks H (initStream h0) chunks)).pending i) ∧
    (acc.id ≠ "" → acc.name ≠ "" → i ∈ order →
      Part.toolCall { callID := acc.id, name := acc.name, argsJSON := acc.argsStr } ∈
        toolPartsOf (runChunks H (initStream h0) chunks).toolCalls order) := by
  have hinv0 : ArgsInvOn (initStream h0 : StreamState σ).toolCalls
      (initStream h0 : StreamState σ).pending := by
    intro i
    refine ⟨fun acc hacc => ?_, fun _ => rfl⟩
    cases hacc
  have hinv := argsInv_runChunks H chunks (initStream h0) hinv0
  have hbase := (hinv i).1 acc hacc
  constructor
  · rw [hbase]
    have hfin : toolArgsDeltasFor
        (finalize H order (runChunks H (initStream h0) chunks)).pending i =
        toolArgsDeltasFor (runChunks H (initStream h0) chunks).pending i := by
      unfold finalize
      dsimp only [enqueue]
      rw [toolArgsDeltasFor_append, emitStageEnd_pending]
      have hmsg : ∀ m : AssistantMessage, toolArgsDeltasFor [.message m] i = [] :=
        fun m => rfl
      rw [hmsg _, List.append_nil]
    rw [hfin]
  · intro hid hname horder
    unfold toolPartsOf
    rw [List.mem_filterMap]
    refine ⟨i, horder, ?_⟩
    rw [hacc]
    simp [hid, hname]

/-- Witness for C7 at `c7Chunks`. -/
theorem toolcall_args_roundtrip_witness :
    lookupAcc (runChunks DefaultRH.handler (initStream (DefaultRH.new "m"))
        c7Chunks).toolCalls 0 =
      some { id := "c1", name := "add", argsStr := "alpha,beta" } ∧
    ({ id := "c1", name := "add", argsStr := "alpha,beta" } : ToolCallAcc).argsStr =
      strConcat (toolArgsDeltasFor
        (finalize DefaultRH.handler [0, 1] (runChunks DefaultRH.handler
          (initStream (DefaultRH.new "m")) c7Chunks)).pending 0) ∧
    Part.toolCall { callID := "c1", name := "add", argsJSON := "alpha,beta" } ∈
      toolPartsOf (runChunks DefaultRH.handler (initStream (DefaultRH.new "m"))
        c7Chunks).toolCalls [0, 1] := by
  have h := toolcall_args_roundtrip DefaultRH.handler (DefaultRH.new "m") c7Chunks
    [0, 1] 0 { id := "c1", name := "add", argsStr := "alpha,beta" } rfl
  exact ⟨rfl, h.1, h.2 (by decide) (by decide) (by decide)⟩

/-- Counterexample to C8 as stated: the single-field textual dialect
encodes only the thinking text, so a part with a non-empty signature
comes back with signature `""`: the round-tripped part is not equal in
all four of thinking, signature, format, modelName. -/
theorem default_roundtrip_drops_signature :
    (defaultRoundTrip { thinking := "T", signature := "S", modelName := "m" } "m").map
        keyFields = [("T", "", "", "m")] ∧
    keyFields { thinking := "T", signature := "S", modelName := "m" } = ("T", "S", "", "m") ∧
    (("T", "", "", "m") : String × String × String × String) ≠ ("T", "S", "", "m") := by
  exact ⟨rfl, rfl, by decide⟩

set_option maxHeartbeats 2000000 in
/-- C8 (amended): for a ThinkingPart whose modelName matches the target
model, the structured `reasoning_details` dialect round-trips thinking,
signature, format and modelName whenever the part is non-empty (some
thinking or some signature); the single-field textual dialect
round-trips them when the part consists of thinking only (non-empty
thinking, no signature, no format — the dialect has nowhere to carry a
signature or format). -/
theorem reasoning_roundtrip (p : ThinkingPart) (targetModel : String)
    (hmodel : p.modelName = targetModel) :
    ((p.thinking ≠ "" ∨ p.signature ≠ "") →
      (orRoundTrip p targetModel).map keyFields = [keyFields p]) ∧
    (p.thinking ≠ "" → p.signature = "" → p.format = "" →
      (defaultRoundTrip p targetModel).map keyFields = [keyFields p]) := by
  obtain ⟨pid, pth, psig, pfmt, pmodel⟩ := p
  dsimp only at hmodel
  subst hmodel
  constructor
  · intro hne
    have hne' : ¬ (pth = "" ∧ psig = "") := by
      rintro ⟨h1, h2⟩
      rcases hne with h | h
      · exact h h1
      · exact h h2
    by_cases hf1 : pfmt = "anthropic-claude-v1"
    · subst hf1
      by_cases hth : pth = "" <;> by_cases hsig : psig = "" <;> by_cases hid : pid = "" <;>
        first
          | (simp [hth, hsig] at hne'; done)
          | simp [orRoundTrip, OpenRouterRH.convertThinkingToExtra, OpenRouterRH.detailsList,
              OpenRouterRH.detailsForPart, OpenRouterRH.crossModel, OpenRouterRH.extractThinking,
              OpenRouterRH.processDetail, OpenRouterRH.flushThinking, OpenRouterRH.new,
              JVal.get, JVal.asStr, JVal.strField, keyFields, List.lookup, List.enum,
              List.enumFrom, hth, hsig, hid]
    · by_cases hf2 : pfmt = "openai-responses-v1"
      · subst hf2
        by_cases hth : pth = "" <;> by_cases hsig : psig = "" <;> by_cases hid : pid = "" <;>
          first
            | (simp [hth, hsig] at hne'; done)
            | simp [orRoundTrip, OpenRouterRH.convertThinkingToExtra, OpenRouterRH.detailsList,
                OpenRouterRH.detailsForPart, OpenRouterRH.crossModel, OpenRouterRH.extractThinking,
                OpenRouterRH.processDetail, OpenRouterRH.flushThinking, OpenRouterRH.new,
                JVal.get, JVal.asStr, JVal.strField, keyFields, List.lookup, List.enum,
                List.enumFrom, hth, hsig, hid]
      · by_cases hth : pth = "" <;> by_cases hsig : psig = "" <;> by_cases hid : pid = "" <;>
          by_cases hfmt0 : pfmt = "" <;>
          first
            | (simp [hth, hsig] at hne'; done)
            | simp [orRoundTrip, OpenRouterRH.convertThinkingToExtra, OpenRouterRH.detailsList,
                OpenRouterRH.detailsForPart, OpenRouterRH.crossModel, OpenRouterRH.extractThinking,
                OpenRouterRH.processDetail, OpenRouterRH.flushThinking, OpenRouterRH.new,
                JVal.get, JVal.asStr, JVal.strField, keyFields, List.lookup, List.enum,
                List.enumFrom, hf1, hf2, hth, hsig, hid, hfmt0]
  · intro hth hsig hfmt
    subst hsig
    subst hfmt
    simp [defaultRoundTrip, DefaultRH.convertThinkingToExtra,
      DefaultRH.convertThinkingToExtra.go, DefaultRH.extractThinking, DefaultRH.flushThinking,
      DefaultRH.new, JVal.get, JVal.asStr, keyFields, List.lookup, strConcat, hth]

/-- Witness for C8 (amended) at a concrete signed anthropic-format part
and a concrete plain-text part. -/
theorem reasoning_roundtrip_witness :
    (orRoundTrip
      { id := "r1", thinking := "T", signature := "S",
        format := "anthropic-claude-v1", modelName := "m" } "m").map keyFields =
      [keyFields
        { id := "r1", thinking := "T", signature := "S",
          format := "anthropic-claude-v1", modelName := "m" }] ∧
    (defaultRoundTrip { thinking := "T", modelName := "m" } "m").map keyFields =
      [keyFields { thinking := "T", modelName := "m" }] := by
  constructor
  · exact (reasoning_roundtrip
      { id := "r1", thinking := "T", signature := "S",
        format := "anthropic-claude-v1", modelName := "m" } "m" rfl).1 (Or.inl (by decide))
  · exact (reasoning_roundtrip { thinking := "T", modelName := "m" } "m" rfl).2
      (by decide) rfl rfl

/-! ## C10 — empty tool results get the placeholder on the wire -/
/-- C10: for every ToolResultMessage whose parts contain no text
content, the request builder sends the placeholder
`<system-reminder>Tool ran without output or errors</system-reminder>`
rather than an empty string; the wire content of a tool message is never
empty. -/
theorem convertToolMessage_placeholder (m : ToolResultMessage)
    (h : textConcat m.parts = "") :
    (convertToolMessage m).content = emptyToolPlaceholder ∧
    (convertToolMessage m).content ≠ "" := by
  refine ⟨?_, ?_⟩ <;> simp [convertToolMessage, h, emptyToolPlaceholder]

/-- Witness for C10 at a concrete empty tool result. -/
theorem convertToolMessage_placeholder_witness :
    (convertToolMessage { callID := "c1", parts := [.image "image/png" "AAAA"] }).content
        = emptyToolPlaceholder ∧
    (convertToolMessage { callID := "c1", parts := [.image "image/png" "AAAA"] }).content
        ≠ "" :=
  convertToolMessage_placeholder { callID := "c1", parts := [.image "image/png" "AAAA"] } rfl

/-- Counterexample to C2 as stated: a tool whose `Execute` returns a
result carrying the non-empty callID `call-x` different from the call's
`call-y`; `executeSingleTool` keeps the returned callID (it only fills a
missing one), so `results[0].callID ≠ calls[0].callID`. -/
theorem executeTools_callID_override :
    (executeToolsMsgs [{ callID := "call-y", name := "t" }] c2Catalog
        (fun _ => false)).map ToolResultMessage.callID = ["call-x"] ∧
    ("call-x" : String) ≠ "call-y" := by
  exact ⟨rfl, by decide⟩

/-- C2 (amended): the executor returns exactly one ToolResultMessage per
call, in call order; result `i` echoes call `i`'s callID except when the
tool's returned result itself carries a different non-empty callID, in
which case that returned callID is kept. -/
theorem executeTools_count_order_callID (calls : List ToolCallPart) (toolMap : Catalog)
    (interrupted : Nat → Bool) :
    (executeToolsMsgs calls toolMap interrupted).length = calls.length ∧
    ∀ (i : Nat) (call : ToolCallPart), calls[i]? = some call →
      ∃ m : ToolResultMessage, (executeToolsMsgs calls toolMap interrupted)[i]? = some m ∧
        (m.callID = call.callID ∨
          ∃ t r, toolMap call.name = some t ∧ t.exec call = .ok r ∧ r.callID ≠ "" ∧
            m.callID = r.callID) := by
  constructor
  · simp [executeToolsMsgs, executeToolsResults]
  · intro i call hcall
    have hi : i < calls.length := by
      have := List.getElem?_eq_some_iff.mp hcall
      exact this.1
    have hres :
        (executeToolsResults calls toolMap interrupted)[i]? =
          some (if interrupted i then interruptedToolResult call
                else executeSingleTool false call toolMap) := by
      simp [executeToolsResults, List.getElem?_map, List.getElem?_range hi, hcall]
    refine ⟨toolResultMessageOf (if interrupted i then interruptedToolResult call
        else executeSingleTool false call toolMap), ?_, ?_⟩
    · simp [executeToolsMsgs, List.getElem?_map, hres]
    · by_cases hint : interrupted i
      · left; simp [hint, toolResultMessageOf, interruptedToolResult]
      · simp only [hint, if_false]
        cases hmap : toolMap call.name with
        | none => left; simp [executeSingleTool, toolResultMessageOf, hmap, toolNotFoundResult]
        | some t =>
          cases hexec : t.exec call with
          | err cancelLike msg =>
            left
            cases cancelLike <;>
              simp [executeSingleTool, toolResultMessageOf, hmap, hexec,
                interruptedToolResult, errorToolResult]
          | ok r =>
            by_cases hid : r.callID = ""
            · left
              by_cases hname : r.name = "" <;>
                simp [executeSingleTool, toolResultMessageOf, hmap, hexec, hid, hname]
            · right
              refine ⟨t, r, rfl, hexec, hid, ?_⟩
              by_cases hname : r.name = "" <;>
                simp [executeSingleTool, toolResultMessageOf, hmap, hexec, hid, hname]

/-- Witness for C2 (amended) at a one-call list against `c2Catalog`. -/
theorem executeTools_count_order_callID_witness :
    (executeToolsMsgs [{ callID := "call-y", name := "missing" }] c2Catalog
        (fun _ => false)).length = 1 ∧
    ∃ m : ToolResultMessage,
      (executeToolsMsgs [{ callID := "call-y", name := "missing" }] c2Catalog
        (fun _ => false))[0]? = some m ∧
      (m.callID = "call-y" ∨
        ∃ t r, c2Catalog "missing" = some t ∧
          t.exec { callID := "call-y", name := "missing" } = .ok r ∧ r.callID ≠ "" ∧
          m.callID = r.callID) := by
  have h := executeTools_count_order_callID
    [{ callID := "call-y", name := "missing" }] c2Catalog (fun _ => false)
  exact ⟨h.1, h.2 0 { callID := "call-y", name := "missing" } rfl⟩

/-! ## C6 — individual tool failures never fail the step -/
/-- C6: when the provider stream succeeds and the context is never
cancelled, the step returns a nil error even when individual tool
executions fail; a missing tool materializes as an isError
ToolResultMessage reading `tool not found`, and a tool error (not
cancellation-like) materializes as an isError ToolResultMessage carrying
the error text, at the call's position in the result. -/
theorem step_tool_failures_not_fatal (updates : List ProviderUpdate)
    (toolMap : Catalog) (am : AssistantMessage)
    (hmsg : retainedAssistant updates = some am) :
    (runStepModel updates none toolMap false (fun _ => false)).2 = none ∧
    ∀ (i : Nat) (call : ToolCallPart), (extractToolCalls am)[i]? = some call →
      (toolMap call.name = none →
        (runStepModel updates none toolMap false (fun _ => false)).1[i + 1]? =
          some (.toolResult
            { callID := call.callID, name := call.name,
              isError := true, parts := [.text "tool not found"] })) ∧
      (∀ t msg, toolMap call.name = some t → t.exec call = .err false msg →
        (runStepModel updates none toolMap false (fun _ => false)).1[i + 1]? =
          some (.toolResult
            { callID := call.callID, name := call.name,
              isError := true, parts := [.text msg] })) := by
  have hrun : runStepModel updates none toolMap false (fun _ => false) =
      (Message.assistant am ::
        (executeToolsMsgs (extractToolCalls am) toolMap (fun _ => false)).map
          Message.toolResult, none) := by
    simp [runStepModel, hmsg]
  refine ⟨by rw [hrun], ?_⟩
  intro i call hcall
  have hi : i < (extractToolCalls am).length := (List.getElem?_eq_some_iff.mp hcall).1
  have hres :
      (executeToolsMsgs (extractToolCalls am) toolMap (fun _ => false))[i]? =
        some (toolResultMessageOf (executeSingleTool false call toolMap)) := by
    simp [executeToolsMsgs, executeToolsResults, List.getElem?_map,
      List.getElem?_range hi, hcall]
  constructor
  · intro hmap
    rw [hrun]
    simp only [List.getElem?_cons_succ, List.getElem?_map, hres]
    simp [executeSingleTool, hmap, toolNotFoundResult, toolResultMessageOf]
  · intro t msg hmap hexec
    rw [hrun]
    simp only [List.getElem?_cons_succ, List.getElem?_map, hres]
    simp [executeSingleTool, hmap, hexec, errorToolResult, toolResultMessageOf]

/-- Witness for C6 at the concrete stream and catalog. -/
theorem step_tool_failures_not_fatal_witness :
    (runStepModel [.message c6Assistant] none c6Catalog false (fun _ => false)).2 = none ∧
    (runStepModel [.message c6Assistant] none c6Catalog false (fun _ => false)).1[1]? =
      some (.toolResult
        { callID := "c1", name := "boom",
          isError := true, parts := [.text "invalid json"] }) ∧
    (runStepModel [.message c6Assistant] none c6Catalog false (fun _ => false)).1[2]? =
      some (.toolResult
        { callID := "c2", name := "ghost",
          isError := true, parts := [.text "tool not found"] }) := by
  have h := step_tool_failures_not_fatal [.message c6Assistant] c6Catalog c6Assistant rfl
  refine ⟨h.1, ?_, ?_⟩
  · exact (h.2 0 { callID := "c1", name := "boom" } rfl).2
      { parallel := false, exec := fun _ => .err false "invalid json" } "invalid json" rfl rfl
  · exact (h.2 1 { callID := "c2", name := "ghost" } rfl).1 rfl

/-- C1, counterexample: a text fragment followed by a reasoning fragment
finalizes to `[text, thinking]` — the text part precedes the thinking
part, because `finalize` flushes stages in arrival order, not
thinking-first.  The claimed part order is violated. -/
theorem finalize_unordered_counterexample :
    (finalize DefaultRH.handler []
        (runChunks DefaultRH.handler (initStream (DefaultRH.new "m"))
          [textChunk "A", reasoningChunk "R"])).pending =
      [.delta (.textDelta "A"), .delta (.thinkingDelta "R"),
       .message { parts := [.text "A", .thinking { thinking := "R", modelName := "m" }],
                  usage := none, stopReason := "stop" }] ∧
    claimedPartOrder
        [.text "A", .thinking { thinking := "R", modelName := "m" }] = false :=
  ⟨rfl, rfl⟩

theorem getLast_snoc {α : Type} (l : List α) (a : α) : (l ++ [a]).getLast? = some a := by
  induction l with
  | nil => rfl
  | cons x xs ih =>
    rw [List.cons_append, List.getLast?_cons, ih]
    rfl

theorem runChunks_cons {σ : Type} (H : RHandler σ) (s : StreamState σ) (c : Chunk)
    (cs : List Chunk) :
    runChunks H s (c :: cs) = runChunks H (processChunk H s c) cs := rfl

theorem runChunks_append {σ : Type} (H : RHandler σ) (s : StreamState σ)
    (l₁ l₂ : List Chunk) :
    runChunks H s (l₁ ++ l₂) = runChunks H (runChunks H s l₁) l₂ := by
  simp [runChunks, List.foldl_append]

theorem emitStageEnd_usage {σ : Type} (H : RHandler σ) (s : StreamState σ) :
    (emitStageEnd H s).usage = s.usage := by
  cases hst : s.stage <;> by_cases htc : s.textContent = [] <;>
    simp [emitStageEnd, flushText, hst, htc]

theorem emitStageEnd_stopReason {σ : Type} (H : RHandler σ) (s : StreamState σ) :
    (emitStageEnd H s).stopReason = s.stopReason := by
  cases hst : s.stage <;> by_cases htc : s.textContent = [] <;>
    simp [emitStageEnd, flushText, hst, htc]

/-- The stage flush reads only `stage`, `textContent`, `hstate` and
`parts`; states agreeing there flush to the same parts. -/
theorem emitStageEnd_parts_congr {σ : Type} (H : RHandler σ) {s s' : StreamState σ}
    (h1 : s'.stage = s.stage) (h2 : s'.textContent = s.textContent)
    (h3 : s'.hstate = s.hstate) (h4 : s'.parts = s.parts) :
    (emitStageEnd H s').parts = (emitStageEnd H s).parts := by
  unfold emitStageEnd flushText
  rw [h1]
  cases hst : s.stage <;> by_cases htc : s.textContent = [] <;>
    simp [hst, htc, h2, h3, h4]

theorem flushedParts_stage_tool {σ : Type} (H : RHandler σ) (s : StreamState σ)
    (h : s.stage = Stage.tool) : flushedParts H s = s.parts := by
  simp [flushedParts, emitStageEnd, h]

/-- `fragCore` only touches the tool-call map and the pending queue. -/
theorem fragCore_proj {σ : Type} (s : StreamState σ) (f : Fragment) :
    (fragCore s f).parts = s.parts ∧ (fragCore s f).stage = s.stage ∧
    (fragCore s f).textContent = s.textContent ∧ (fragCore s f).hstate = s.hstate ∧
    (fragCore s f).usage = s.usage ∧ (fragCore s f).stopReason = s.stopReason := by
  unfold fragCore
  by_cases h1 : (lookupAcc s.toolCalls f.index).isNone <;>
    by_cases h2 : f.arguments = "" <;>
    simp [h1, h2, enqueue]

/-- Processing a tool-call fragment never changes what the final stage
flush will contribute to `parts`. -/
theorem flushedParts_processFragment {σ : Type} (H : RHandler σ) (s : StreamState σ)
    (f : Fragment) : flushedParts H (processFragment H s f) = flushedParts H s := by
  unfold processFragment
  by_cases c1 : s.stage = Stage.tool
  · simp only [c1, ne_eq, not_true_eq_false, if_false, ite_false]
    obtain ⟨hp, hs, _, _, _, _⟩ := fragCore_proj s f
    rw [flushedParts_stage_tool H _ (hs.trans c1), hp, flushedParts_stage_tool H s c1]
  · simp only [c1, ne_eq, not_false_iff, if_true, ite_true]
    obtain ⟨hp, hs, _, _, _, _⟩ :=
      fragCore_proj { emitStageEnd H s with stage := Stage.tool } f
    rw [flushedParts_stage_tool H _ (hs.trans rfl), hp]
    rfl

theorem processFragment_usage_stop {σ : Type} (H : RHandler σ) (s : StreamState σ)
    (f : Fragment) :
    (processFragment H s f).usage = s.usage ∧
    (processFragment H s f).stopReason = s.stopReason := by
  unfold processFragment
  by_cases c1 : s.stage = Stage.tool
  · simp only [c1, ne_eq, not_true_eq_false, if_false, ite_false]
    obtain ⟨_, _, _, _, hu, hr⟩ := fragCore_proj s f
    exact ⟨hu, hr⟩
  · simp only [c1, ne_eq, not_false_iff, if_true, ite_true]
    obtain ⟨_, _, _, _, hu, hr⟩ :=
      fragCore_proj { emitStageEnd H s with stage := Stage.tool } f
    exact ⟨hu.trans (emitStageEnd_usage H s), hr.trans (emitStageEnd_stopReason H s)⟩

theorem flushedParts_foldFragments {σ : Type} (H : RHandler σ) :
    ∀ (fs : List Fragment) (s : StreamState σ),
      flushedParts H (fs.foldl (processFragment H) s) = flushedParts H s ∧
      (fs.foldl (processFragment H) s).usage = s.usage ∧
      (fs.foldl (processFragment H) s).stopReason = s.stopReason
  | [], _ => ⟨rfl, rfl, rfl⟩
  | f :: fs, s => by
    simp only [List.foldl_cons]
    obtain ⟨h1, h2, h3⟩ := flushedParts_foldFragments H fs (processFragment H s f)
    obtain ⟨hu, hr⟩ := processFragment_usage_stop H s f
    exact ⟨h1.trans (flushedParts_processFragment H s f), h2.trans hu, h3.trans hr⟩

/-- A chunk carrying only tool-call fragments reduces to the fragment
loop (for the default handler, whose extractor ignores an empty map). -/
theorem processChunk_toolChunk (s : StreamState DefaultRH) (fs : List Fragment) :
    processChunk DefaultRH.handler s (toolChunk fs) =
      fs.foldl (processFragment DefaultRH.handler) s := rfl

/-- The tool phase never changes the flushable parts, the usage snapshot
or the stop reason. -/
theorem flushedParts_toolPhase :
    ∀ (fss : List (List Fragment)) (s : StreamState DefaultRH),
      flushedParts DefaultRH.handler
          (runChunks DefaultRH.handler s (fss.map toolChunk)) =
        flushedParts DefaultRH.handler s ∧
      (runChunks DefaultRH.handler s (fss.map toolChunk)).usage = s.usage ∧
      (runChunks DefaultRH.handler s (fss.map toolChunk)).stopReason = s.stopReason
  | [], _ => ⟨rfl, rfl, rfl⟩
  | fs :: fss, s => by
    rw [List.map_cons, runChunks_cons, processChunk_toolChunk]
    obtain ⟨h1, h2, h3⟩ :=
      flushedParts_toolPhase fss (fs.foldl (processFragment DefaultRH.handler) s)
    obtain ⟨g1, g2, g3⟩ := flushedParts_foldFragments DefaultRH.handler fs s
    exact ⟨h1.trans g1, h2.trans g2, h3.trans g3⟩

/-- One reasoning chunk in the waiting or thinking stage: accumulate
and emit the ThinkingDelta. -/
theorem processChunk_reasoning {s : StreamState DefaultRH} {r : String}
    (hst : s.stage = Stage.waiting ∨ s.stage = Stage.thinking) (hr : r ≠ "") :
    processChunk DefaultRH.handler s (reasoningChunk r) =
      { s with stage := Stage.thinking,
               hstate := { s.hstate with
                 accumulatedThinking := s.hstate.accumulatedThinking ++ [r] },
               pending := s.pending ++ [.delta (.thinkingDelta r)] } := by
  rcases hst with hst | hst <;>
    simp [processChunk, chunkUsage, chunkFinish, chunkBody, reasoningChunk,
      Chunk.deltaMap, DefaultRH.handler, DefaultRH.extractThinking, JVal.get,
      JVal.asStr, List.lookup, emitStageEnd, enqueue, hst, hr]

/-- Draining a block of non-empty reasoning chunks from the waiting or
thinking stage. -/
theorem runChunks_reasoningPhase :
    ∀ (rs : List String) (s : StreamState DefaultRH),
      (s.stage = Stage.waiting ∨ s.stage = Stage.thinking) → (∀ r ∈ rs, r ≠ "") →
      runChunks DefaultRH.handler s (rs.map reasoningChunk) =
        { s with stage := if rs = [] then s.stage else Stage.thinking,
                 hstate := { s.hstate with
                   accumulatedThinking := s.hstate.accumulatedThinking ++ rs },
                 pending := s.pending
                   ++ rs.map (fun r => .delta (.thinkingDelta r)) }
  | [], s, _, _ => by simp [runChunks]
  | r :: rs, s, hst, hr => by
    rw [List.map_cons, runChunks_cons,
      processChunk_reasoning hst (hr r (List.mem_cons_self r rs)),
      runChunks_reasoningPhase rs _ (Or.inr rfl)
        (fun x hx => hr x (List.mem_cons_of_mem _ hx))]
    simp [List.append_assoc]

/-- One non-empty text chunk in the text stage: accumulate and emit. -/
theorem processChunk_text_steady {s : StreamState DefaultRH} {t : String}
    (hst : s.stage = Stage.text) (ht : t ≠ "") :
    processChunk DefaultRH.handler s (textChunk t) =
      { s with textContent := s.textContent ++ [t],
               pending := s.pending ++ [.delta (.textDelta t)] } := by
  simp [processChunk, chunkUsage, chunkFinish, chunkBody, textChunk, Chunk.deltaMap,
    DefaultRH.handler, DefaultRH.extractThinking, JVal.get, JVal.asStr, List.lookup,
    enqueue, hst, ht]

/-- Draining a block of non-empty text chunks within the text stage. -/
theorem runChunks_textSteady :
    ∀ (ts : List String) (s : StreamState DefaultRH), s.stage = Stage.text →
      (∀ t ∈ ts, t ≠ "") →
      runChunks DefaultRH.handler s (ts.map textChunk) =
        { s with textContent := s.textContent ++ ts,
                 pending := s.pending ++ ts.map (fun t => .delta (.textDelta t)) }
  | [], s, _, _ => by simp [runChunks]
  | t :: ts, s, hst, ht => by
    rw [List.map_cons, runChunks_cons,
      processChunk_text_steady hst (ht t (List.mem_cons_self t ts)),
      runChunks_textSteady ts
        { s with textContent := s.textContent ++ [t],
                 pending := s.pending ++ [.delta (.textDelta t)] }
        hst (fun x hx => ht x (List.mem_cons_of_mem _ hx))]
    simp [List.append_assoc]

/-- The first non-empty text chunk after the reasoning block flushes the
thinking stage into `parts` and opens the text stage. -/
theorem processChunk_text_first (model : String) (rs : List String) (t : String)
    (ht : t ≠ "") :
    processChunk DefaultRH.handler (phase1State model rs) (textChunk t) =
      { stage := Stage.text,
        pending := rs.map (fun r => .delta (.thinkingDelta r))
          ++ [.delta (.textDelta t)],
        textContent := [t],
        parts := thinkParts model rs,
        hstate := { modelName := model, accumulatedThinking := [] } } := by
  by_cases hrs : rs = []
  · subst hrs
    simp [phase1State, processChunk, chunkUsage, chunkFinish, chunkBody, textChunk,
      Chunk.deltaMap, DefaultRH.handler, DefaultRH.extractThinking, JVal.get,
      JVal.asStr, List.lookup, emitStageEnd, enqueue, thinkParts, ht]
  · simp [phase1State, processChunk, chunkUsage, chunkFinish, chunkBody, textChunk,
      Chunk.deltaMap, DefaultRH.handler, DefaultRH.extractThinking,
      DefaultRH.flushThinking, JVal.get, JVal.asStr, List.lookup, emitStageEnd,
      flushText, enqueue, thinkParts, ht, hrs]

/-- Draining the whole text block from the post-reasoning state. -/
theorem runChunks_textPhase (model : String) (rs ts : List String)
    (ht : ∀ t ∈ ts, t ≠ "") :
    runChunks DefaultRH.handler (phase1State model rs) (ts.map textChunk) =
      phase2State model rs ts := by
  cases ts with
  | nil => simp [runChunks, phase2State]
  | cons t ts =>
    rw [List.map_cons, runChunks_cons,
      processChunk_text_first model rs t (ht t (List.mem_cons_self t ts)),
      runChunks_textSteady ts _ rfl (fun x hx => ht x (List.mem_cons_of_mem _ hx))]
    simp [phase2State, List.append_assoc]

theorem flushedParts_phase2 (model : String) (rs ts : List String) :
    flushedParts DefaultRH.handler (phase2State model rs ts) =
      thinkParts model rs ++ textParts ts := by
  by_cases hts : ts = []
  · subst hts
    by_cases hrs : rs = [] <;>
      simp [phase2State, phase1State, flushedParts, emitStageEnd, flushText,
        DefaultRH.handler, DefaultRH.flushThinking, thinkParts, textParts, hrs]
  · simp [phase2State, hts, flushedParts, emitStageEnd, flushText, textParts]

theorem phase2State_usage_stop (model : String) (rs ts : List String) :
    (phase2State model rs ts).usage = none ∧ (phase2State model rs ts).stopReason = "" := by
  unfold phase2State phase1State
  split <;> exact ⟨rfl, rfl⟩

/-- The final MessageUpdate of `finalize`: the stage flush, then the
tool-call parts in map iteration order. -/
theorem finalize_pendingLast {σ : Type} (H : RHandler σ) (order : List Nat)
    (s : StreamState σ) :
    (finalize H order s).pending.getLast? =
      some (.message
        { parts := flushedParts H s ++ toolPartsOf s.toolCalls order,
          usage := s.usage,
          stopReason := if s.stopReason = "" then "stop" else s.stopReason }) := by
  unfold finalize
  dsimp only
  rw [enqueue, getLast_snoc]
  rw [emitStageEnd_toolCalls, emitStageEnd_usage, emitStageEnd_stopReason]
  have hc : (emitStageEnd H
      { s with done := true,
               stopReason := if s.stopReason = "" then "stop" else s.stopReason }).parts =
      (emitStageEnd H s).parts :=
    emitStageEnd_parts_congr H rfl rfl rfl rfl
  rw [hc]
  rfl

/-- C1, amended: for a grouped stream — all (non-empty) reasoning
fragments, then all (non-empty) text fragments, then the tool-call
fragments — the finalized AssistantMessage's parts are the thinking
part (if any reasoning arrived), then the single text part (if any text
arrived), then the tool-call parts in the iteration order of the Go
accumulator map (not necessarily ascending by wire index).  When
fragment kinds interleave, even the kind ordering can fail
(`finalize_unordered_counterexample`). -/
theorem finalize_stagewise_order (model : String) (rs ts : List String)
    (fss : List (List Fragment)) (order : List Nat)
    (hr : ∀ r ∈ rs, r ≠ "") (ht : ∀ t ∈ ts, t ≠ "") :
    (finalize DefaultRH.handler order
        (runChunks DefaultRH.handler (initStream (DefaultRH.new model))
          (rs.map reasoningChunk ++ ts.map textChunk
            ++ fss.map toolChunk))).pending.getLast? =
      some (.message
        { parts := thinkParts model rs ++ textParts ts ++
            toolPartsOf
              (runChunks DefaultRH.handler (initStream (DefaultRH.new model))
                (rs.map reasoningChunk ++ ts.map textChunk
                  ++ fss.map toolChunk)).toolCalls order,
          usage := none, stopReason := "stop" }) := by
  have hph1 : runChunks DefaultRH.handler (initStream (DefaultRH.new model))
      (rs.map reasoningChunk) = phase1State model rs := by
    rw [runChunks_reasoningPhase rs (initStream (DefaultRH.new model)) (Or.inl rfl) hr]
    simp [initStream, phase1State, DefaultRH.new]
  rw [runChunks_append, runChunks_append, hph1, runChunks_textPhase model rs ts ht,
    finalize_pendingLast]
  obtain ⟨hfp, hus, hsr⟩ := flushedParts_toolPhase fss (phase2State model rs ts)
  rw [hfp, flushedParts_phase2, hus, hsr, (phase2State_usage_stop model rs ts).1,
    (phase2State_usage_stop model rs ts).2]
  simp [List.append_assoc]

/-- Witness for the amended C1 at a concrete grouped stream. -/
theorem finalize_stagewise_order_witness :
    ((∀ r ∈ ["R1", "R2"], r ≠ "") ∧ (∀ t ∈ ["A", "B"], t ≠ "")) ∧
    (finalize DefaultRH.handler [5]
        (runChunks DefaultRH.handler (initStream (DefaultRH.new "m"))
          c1Chunks)).pending.getLast? =
      some (.message
        { parts := thinkParts "m" ["R1", "R2"] ++ textParts ["A", "B"] ++
            toolPartsOf
              (runChunks DefaultRH.handler (initStream (DefaultRH.new "m"))
                c1Chunks).toolCalls [5],
          usage := none, stopReason := "stop" }) :=
  ⟨⟨by decide, by decide⟩,
   finalize_stagewise_order "m" ["R1", "R2"] ["A", "B"]
     [[{ index := 5, id := "call-1", name := "search", arguments := "x" }]] [5]
     (by decide) (by decide)⟩

theorem getElem?_some_lt {α : Type} {l : List α} {n : Nat} {a : α}
    (h : l[n]? = some a) : n < l.length := by
  by_contra hn
  rw [List.getElem?_eq_none (le_of_not_lt hn)] at h
  exact Option.noConfusion h

theorem getElem?_append_or {α : Type} {l l' : List α} {q : Nat} {a : α}
    (h : (l ++ l')[q]? = some a) :
    (q < l.length ∧ l[q]? = some a) ∨ (l.length ≤ q ∧ l'[q - l.length]? = some a) := by
  by_cases hq : q < l.length
  · exact Or.inl ⟨hq, by rwa [List.getElem?_append_left hq] at h⟩
  · exact Or.inr ⟨le_of_not_lt hq,
      by rwa [List.getElem?_append_right (le_of_not_lt hq)] at h⟩

theorem getElem?_append_lift {α : Type} {l : List α} (l' : List α) {q : Nat} {a : α}
    (h : l[q]? = some a) : (l ++ l')[q]? = some a := by
  rw [List.getElem?_append_left (getElem?_some_lt h)]
  exact h

theorem getElem?_append_right_off {α : Type} (l l' : List α) (k : Nat) :
    (l ++ l')[l.length + k]? = l'[k]? := by
  rw [List.getElem?_append_right (Nat.le_add_right _ _)]
  congr 1
  omega

theorem getElem?_single {α : Type} {a x : α} {k : Nat}
    (h : ([a] : List α)[k]? = some x) : k = 0 ∧ x = a := by
  match k with
  | 0 => exact ⟨rfl, (Option.some.inj h).symm⟩
  | k + 1 => simp at h

theorem getElem?_pair {α : Type} {a b x : α} {k : Nat}
    (h : ([a, b] : List α)[k]? = some x) :
    (k = 0 ∧ x = a) ∨ (k = 1 ∧ x = b) := by
  match k with
  | 0 => exact Or.inl ⟨rfl, (Option.some.inj h).symm⟩
  | 1 => exact Or.inr ⟨rfl, (Option.some.inj h).symm⟩
  | k + 2 => simp at h

theorem execInv_step {calls : List String} {toolMap : Catalog} {s s' : ExecState}
    (hstep : ExecStep calls toolMap s s') (hinv : ExecInv calls toolMap s) :
    ExecInv calls toolMap s' := by
  unfold ExecInv at hinv
  obtain ⟨hEL, hRE, hSL, hES, hNP⟩ := hinv
  cases hstep with
  | launch name hname hpar hcanc =>
    unfold ExecInv
    refine ⟨hEL.trans (Finset.subset_insert _ _), hRE, ?_, ?_, ?_⟩
    · intro q j hq hpf
      rcases getElem?_append_or hq with ⟨_, hold⟩ | ⟨_, hnew⟩
      · exact Finset.mem_insert_of_mem (hSL q j hold hpf)
      · obtain ⟨_, hx⟩ := getElem?_single hnew
        have hj := Ev.start.inj hx
        subst hj
        exact Finset.mem_insert_self _ _
    · intro j hj
      obtain ⟨r, hr⟩ := hES j hj
      exact ⟨r, getElem?_append_lift _ hr⟩
    · intro p i hp hpf
      rcases getElem?_append_or hp with ⟨_, hold⟩ | ⟨_, hnew⟩
      · obtain ⟨hstop, hrest⟩ := hNP p i hold hpf
        refine ⟨getElem?_append_lift _ hstop, ?_⟩
        intro q j hq hqp
        rcases getElem?_append_or hq with ⟨_, hold2⟩ | ⟨hge2, hnew2⟩
        · rcases hrest q j hold2 hqp with ⟨r, hrlt, hrstop⟩ | hgt
          · exact Or.inl ⟨r, hrlt, getElem?_append_lift _ hrstop⟩
          · exact Or.inr hgt
        · obtain ⟨hk, _⟩ := getElem?_single hnew2
          exact Or.inr (by have := getElem?_some_lt hstop; omega)
      · obtain ⟨_, hx⟩ := getElem?_single hnew
        have hi := Ev.start.inj hx
        subst hi
        have htrue : pflagAt calls toolMap s.idx = true := by
          unfold pflagAt
          rw [hname]
          exact hpar
        rw [htrue] at hpf
        exact Bool.noConfusion hpf
  | workerStop j hj hnj =>
    unfold ExecInv
    refine ⟨Finset.insert_subset_iff.mpr ⟨hj, hEL⟩,
      hRE.trans (Finset.subset_insert _ _), ?_, ?_, ?_⟩
    · intro q j' hq hpf
      rcases getElem?_append_or hq with ⟨_, hold⟩ | ⟨_, hnew⟩
      · exact hSL q j' hold hpf
      · obtain ⟨_, hx⟩ := getElem?_single hnew
        exact Ev.noConfusion hx
    · intro j' hj'
      rcases Finset.mem_insert.mp hj' with rfl | hmem
      · exact ⟨s.trace.length,
          by simpa using getElem?_append_right_off s.trace [Ev.stop j'] 0⟩
      · obtain ⟨r, hr⟩ := hES j' hmem
        exact ⟨r, getElem?_append_lift _ hr⟩
    · intro p i hp hpf
      rcases getElem?_append_or hp with ⟨_, hold⟩ | ⟨_, hnew⟩
      · obtain ⟨hstop, hrest⟩ := hNP p i hold hpf
        refine ⟨getElem?_append_lift _ hstop, ?_⟩
        intro q j' hq hqp
        rcases getElem?_append_or hq with ⟨_, hold2⟩ | ⟨_, hnew2⟩
        · rcases hrest q j' hold2 hqp with ⟨r, hrlt, hrstop⟩ | hgt
          · exact Or.inl ⟨r, hrlt, getElem?_append_lift _ hrstop⟩
          · exact Or.inr hgt
        · obtain ⟨_, hx⟩ := getElem?_single hnew2
          exact Ev.noConfusion hx
      · obtain ⟨_, hx⟩ := getElem?_single hnew
        exact Ev.noConfusion hx
  | recv j hj hnj =>
    exact ⟨hEL, Finset.insert_subset_iff.mpr ⟨hj, hRE⟩, hSL, hES, hNP⟩
  | inline name hname hpar hcanc hsub =>
    unfold ExecInv
    refine ⟨hEL, hRE, ?_, ?_, ?_⟩
    · intro q j hq hpf
      rcases getElem?_append_or hq with ⟨_, hold⟩ | ⟨_, hnew⟩
      · exact hSL q j hold hpf
      · rcases getElem?_pair hnew with ⟨_, hx⟩ | ⟨_, hx⟩
        · have hj := Ev.start.inj hx
          subst hj
          have hfalse : pflagAt calls toolMap s.idx = false := by
            unfold pflagAt
            rw [hname]
            exact hpar
          rw [hfalse] at hpf
          exact Bool.noConfusion hpf
        · exact Ev.noConfusion hx
    · intro j hj
      obtain ⟨r, hr⟩ := hES j hj
      exact ⟨r, getElem?_append_lift _ hr⟩
    · intro p i hp hpf
      rcases getElem?_append_or hp with ⟨_, hold⟩ | ⟨hge, hnew⟩
      · obtain ⟨hstop, hrest⟩ := hNP p i hold hpf
        refine ⟨getElem?_append_lift _ hstop, ?_⟩
        intro q j hq hqp
        rcases getElem?_append_or hq with ⟨_, hold2⟩ | ⟨hge2, hnew2⟩
        · rcases hrest q j hold2 hqp with ⟨r, hrlt, hrstop⟩ | hgt
          · exact Or.inl ⟨r, hrlt, getElem?_append_lift _ hrstop⟩
          · exact Or.inr hgt
        · rcases getElem?_pair hnew2 with ⟨hk, _⟩ | ⟨_, hx⟩
          · exact Or.inr (by have := getElem?_some_lt hstop; omega)
          · exact Ev.noConfusion hx
      · rcases getElem?_pair hnew with ⟨hk, hx⟩ | ⟨_, hx⟩
        · have hi := Ev.start.inj hx
          subst hi
          have hp' : p = s.trace.length := by omega
          subst hp'
          constructor
          · simpa using
              getElem?_append_right_off s.trace [Ev.start s.idx, Ev.stop s.idx] 1
          · intro q j hq hqp
            rcases getElem?_append_or hq with ⟨hlt2, hold2⟩ | ⟨hge2, hnew2⟩
            · left
              by_cases hpf2 : pflagAt calls toolMap j = true
              · have hl := hSL q j hold2 hpf2
                have he : j ∈ s.ended := hRE (hsub hl)
                obtain ⟨r, hr⟩ := hES j he
                exact ⟨r, getElem?_some_lt hr, getElem?_append_lift _ hr⟩
              · have hpf2' : pflagAt calls toolMap j = false :=
                  Bool.eq_false_iff.mpr hpf2
                obtain ⟨hstop2, _⟩ := hNP q j hold2 hpf2'
                exact ⟨q + 1, getElem?_some_lt hstop2, getElem?_append_lift _ hstop2⟩
            · rcases getElem?_pair hnew2 with ⟨hk2, _⟩ | ⟨hk2, hx2⟩
              · exact absurd (by omega : q = s.trace.length) hqp
              · exact Ev.noConfusion hx2
        · exact Ev.noConfusion hx
  | skip name hname hcanc =>
    exact ⟨hEL, hRE, hSL, hES, hNP⟩
  | cancel hcanc =>
    exact ⟨hEL, hRE, hSL, hES, hNP⟩

theorem execInv_init (calls : List String) (toolMap : Catalog) :
    ExecInv calls toolMap {} := by
  unfold ExecInv
  refine ⟨Finset.empty_subset _, Finset.empty_subset _, ?_, ?_, ?_⟩
  · intro q j hq _
    simp at hq
  · intro j hj
    simp at hj
  · intro p i hp _
    simp at hp

theorem execInv_reachable {calls : List String} {toolMap : Catalog} {s : ExecState}
    (h : ExecReachable calls toolMap s) : ExecInv calls toolMap s := by
  unfold ExecReachable at h
  induction h with
  | refl => exact execInv_init calls toolMap
  | tail _ hstep ih => exact execInv_step hstep ih

/-- C5: in every reachable scheduler state of `executeTools`, a call
whose tool is not parallel-flagged (or absent from the catalog) executes
exclusively: its traced start is immediately followed by its stop, and
every other traced start belongs to a call that already stopped strictly
before it started, or starts strictly after it stopped — no execution
interval overlaps the non-parallel call's interval. -/
theorem nonparallel_exclusive (calls : List String) (toolMap : Catalog)
    (s : ExecState) (p i : Nat) (hreach : ExecReachable calls toolMap s)
    (hstart : s.trace[p]? = some (Ev.start i))
    (hnp : pflagAt calls toolMap i = false) :
    s.trace[p + 1]? = some (Ev.stop i) ∧
    ∀ (q j : Nat), s.trace[q]? = some (Ev.start j) → q ≠ p →
      (∃ r : Nat, r < p ∧ s.trace[r]? = some (Ev.stop j)) ∨ p + 1 < q := by
  have hinv := execInv_reachable hreach
  unfold ExecInv at hinv
  exact hinv.2.2.2.2 p i hstart hnp

theorem c5_reachable : ExecReachable c5Calls c5Catalog c5Final :=
  Relation.ReflTransGen.tail
    (Relation.ReflTransGen.tail
      (Relation.ReflTransGen.tail
        (Relation.ReflTransGen.tail Relation.ReflTransGen.refl
          (show ExecStep c5Calls c5Catalog {} c5s1 from
            ExecStep.launch {} "search" rfl rfl rfl))
        (show ExecStep c5Calls c5Catalog c5s1 c5s2 from
          ExecStep.workerStop c5s1 0 (Finset.mem_insert_self 0 ∅)
            (Finset.not_mem_empty 0)))
      (show ExecStep c5Calls c5Catalog c5s2 c5s3 from
        ExecStep.recv c5s2 0 (Finset.mem_insert_self 0 ∅) (Finset.not_mem_empty 0)))
    (show ExecStep c5Calls c5Catalog c5s3 c5Final from
      ExecStep.inline c5s3 "write" rfl rfl rfl (Finset.Subset.refl _))

/-- Witness for C5 at the concrete two-call trace. -/
theorem nonparallel_exclusive_witness :
    (c5Final.trace[2]? = some (Ev.start 1) ∧
     pflagAt c5Calls c5Catalog 1 = false) ∧
    (c5Final.trace[2 + 1]? = some (Ev.stop 1) ∧
     ∀ (q j : Nat), c5Final.trace[q]? = some (Ev.start j) → q ≠ 2 →
       (∃ r : Nat, r < 2 ∧ c5Final.trace[r]? = some (Ev.stop j)) ∨ 2 + 1 < q) :=
  ⟨⟨rfl, rfl⟩,
   nonparallel_exclusive c5Calls c5Catalog c5Final 2 1 c5_reachable rfl rfl⟩

end StepV
